import Mathlib

/-!
Verification of the query-serialization and transport core of the
`thecompaniesapi` Go SDK (`client.go`), as a shallow embedding in Lean.

Strings are modelled as Lean `String` (lists of Unicode scalar values);
byte-level operations of the Go code (`url.QueryEscape` works on UTF-8
bytes) are modelled through an explicit UTF-8 encoder on code points.
-/

namespace TCA

/-! ## Character and byte helpers -/

/-- Decimal digit character: `digitChar d` is the character for digit `d < 10`. -/
def digitChar (d : Nat) : Char := Char.ofNat (48 + d)

/-- Uppercase hexadecimal digit character, used by `url.QueryEscape` (`%AB`). -/
def hexDigitUpper (d : Nat) : Char :=
  if d < 10 then Char.ofNat (48 + d) else Char.ofNat (55 + d)

/-- Lowercase hexadecimal digit character, used by `encoding/json` (`«`). -/
def hexDigitLower (d : Nat) : Char :=
  if d < 10 then Char.ofNat (48 + d) else Char.ofNat (87 + d)

/-- Numeric value of a hexadecimal digit character, `none` for other characters. -/
def hexVal (c : Char) : Option Nat :=
  if '0' ≤ c ∧ c ≤ '9' then some (c.toNat - 48)
  else if 'a' ≤ c ∧ c ≤ 'f' then some (c.toNat - 87)
  else if 'A' ≤ c ∧ c ≤ 'F' then some (c.toNat - 55)
  else none

/-- UTF-8 byte encoding of a Unicode scalar value (as `Nat`s below 256). -/
def utf8Bytes (n : Nat) : List Nat :=
  if n < 0x80 then [n]
  else if n < 0x800 then [0xC0 + n / 0x40, 0x80 + n % 0x40]
  else if n < 0x10000 then
    [0xE0 + n / 0x1000, 0x80 + n / 0x40 % 0x40, 0x80 + n % 0x40]
  else
    [0xF0 + n / 0x40000, 0x80 + n / 0x1000 % 0x40, 0x80 + n / 0x40 % 0x40,
      0x80 + n % 0x40]

/-- A `Nat` is a valid Unicode scalar value (not a surrogate, below 0x110000). -/
def isValidScalar (n : Nat) : Bool := n < 0xD800 || (0xDFFF < n && n < 0x110000)

/-- Decode one UTF-8 sequence of the form lead byte + 1 continuation byte. -/
def utf8Tail1 (b : Nat) : List Nat → Option (Nat × List Nat)
  | b2 :: rest =>
    if 0x80 ≤ b2 ∧ b2 < 0xC0 then some ((b - 0xC0) * 0x40 + (b2 - 0x80), rest)
    else none
  | [] => none

/-- Decode one UTF-8 sequence of the form lead byte + 2 continuation bytes. -/
def utf8Tail2 (b : Nat) : List Nat → Option (Nat × List Nat)
  | b2 :: b3 :: rest =>
    if 0x80 ≤ b2 ∧ b2 < 0xC0 ∧ 0x80 ≤ b3 ∧ b3 < 0xC0 then
      let n := (b - 0xE0) * 0x1000 + (b2 - 0x80) * 0x40 + (b3 - 0x80)
      if 0x800 ≤ n then some (n, rest) else none
    else none
  | _ => none

/-- Decode one UTF-8 sequence of the form lead byte + 3 continuation bytes. -/
def utf8Tail3 (b : Nat) : List Nat → Option (Nat × List Nat)
  | b2 :: b3 :: b4 :: rest =>
    if 0x80 ≤ b2 ∧ b2 < 0xC0 ∧ 0x80 ≤ b3 ∧ b3 < 0xC0 ∧ 0x80 ≤ b4 ∧ b4 < 0xC0 then
      let n := (b - 0xF0) * 0x40000 + (b2 - 0x80) * 0x1000 + (b3 - 0x80) * 0x40 +
        (b4 - 0x80)
      if 0x10000 ≤ n ∧ n < 0x110000 then some (n, rest) else none
    else none
  | _ => none

/-- Decode one Unicode scalar value from the head of a UTF-8 byte list,
returning the scalar and the remaining bytes. -/
def utf8DecodeChar (bs : List Nat) : Option (Nat × List Nat) :=
  match bs with
  | [] => none
  | b :: rest =>
    if b < 0x80 then some (b, rest)
    else if b < 0xC2 then none
    else if b < 0xE0 then utf8Tail1 b rest
    else if b < 0xF0 then utf8Tail2 b rest
    else if b < 0xF5 then utf8Tail3 b rest
    else none

/-- Fueled UTF-8 decoding loop; each step consumes at least one byte, so fuel
equal to the byte count always suffices. -/
def utf8DecodeAux : Nat → List Nat → Option (List Char)
  | _, [] => some []
  | 0, _ :: _ => none
  | fuel + 1, b :: bs =>
    match utf8DecodeChar (b :: bs) with
    | some (n, rest) =>
      if isValidScalar n then (utf8DecodeAux fuel rest).map fun cs => Char.ofNat n :: cs
      else none
    | none => none

/-- UTF-8 decoder on byte lists; rejects malformed, overlong and surrogate
encodings. Inverse of `utf8Bytes` applied charwise. -/
def utf8Decode (bs : List Nat) : Option (List Char) := utf8DecodeAux bs.length bs

/-- UTF-8 encoding of a character list. -/
def utf8Encode (cs : List Char) : List Nat :=
  match cs with
  | [] => []
  | c :: cs => utf8Bytes c.toNat ++ utf8Encode cs

theorem char_toNat_valid (c : Char) :
    c.toNat < 0xD800 ∨ (0xDFFF < c.toNat ∧ c.toNat < 0x110000) := by
  rcases c.valid with h | ⟨h1, h2⟩
  · left
    exact h
  · right
    exact ⟨h1, h2⟩

theorem char_toNat_lt (c : Char) : c.toNat < 0x110000 := by
  rcases char_toNat_valid c with h | ⟨_, h⟩ <;> omega

theorem utf8Bytes_lt (n : Nat) (hn : n < 0x110000) : ∀ b ∈ utf8Bytes n, b < 256 := by
  intro b hb
  unfold utf8Bytes at hb
  split at hb
  · simp at hb
    omega
  · split at hb
    · simp at hb
      rcases hb with h | h <;> omega
    · split at hb
      · simp at hb
        rcases hb with h | h | h <;> omega
      · simp at hb
        rcases hb with h | h | h | h <;> omega

theorem isValidScalar_toNat (c : Char) : isValidScalar c.toNat = true := by
  rcases char_toNat_valid c with h | ⟨h1, h2⟩ <;>
    simp only [isValidScalar, Bool.or_eq_true, decide_eq_true_eq, Bool.and_eq_true] <;>
    omega

theorem utf8Bytes_cons (n : Nat) : ∃ b bs, utf8Bytes n = b :: bs := by
  unfold utf8Bytes
  split
  · exact ⟨_, _, rfl⟩
  · split
    · exact ⟨_, _, rfl⟩
    · split
      · exact ⟨_, _, rfl⟩
      · exact ⟨_, _, rfl⟩

theorem utf8DecodeChar_utf8Bytes (c : Char) (rest : List Nat) :
    utf8DecodeChar (utf8Bytes c.toNat ++ rest) = some (c.toNat, rest) := by
  have hlt := char_toNat_lt c
  by_cases h1 : c.toNat < 0x80
  · rw [utf8Bytes, if_pos h1, List.cons_append, List.nil_append, utf8DecodeChar]
    rw [if_pos h1]
  · by_cases h2 : c.toNat < 0x800
    · rw [utf8Bytes, if_neg h1, if_pos h2, List.cons_append, List.cons_append,
        List.nil_append, utf8DecodeChar]
      rw [if_neg (by omega), if_neg (by omega), if_pos (by omega), utf8Tail1,
        if_pos (by omega)]
      have hn : (0xC0 + c.toNat / 0x40 - 0xC0) * 0x40 + (0x80 + c.toNat % 0x40 - 0x80)
          = c.toNat := by omega
      rw [hn]
    · by_cases h3 : c.toNat < 0x10000
      · rw [utf8Bytes, if_neg h1, if_neg h2, if_pos h3, List.cons_append,
          List.cons_append, List.cons_append, List.nil_append, utf8DecodeChar]
        rw [if_neg (by omega), if_neg (by omega), if_neg (by omega), if_pos (by omega),
          utf8Tail2, if_pos (by omega)]
        simp only
        rw [if_pos (by omega)]
        have hn : (0xE0 + c.toNat / 0x1000 - 0xE0) * 0x1000 +
            (0x80 + c.toNat / 0x40 % 0x40 - 0x80) * 0x40 +
            (0x80 + c.toNat % 0x40 - 0x80) = c.toNat := by omega
        rw [hn]
      · rw [utf8Bytes, if_neg h1, if_neg h2, if_neg h3, List.cons_append,
          List.cons_append, List.cons_append, List.cons_append, List.nil_append,
          utf8DecodeChar]
        rw [if_neg (by omega), if_neg (by omega), if_neg (by omega), if_neg (by omega),
          if_pos (by omega), utf8Tail3, if_pos (by omega)]
        simp only
        rw [if_pos (by omega)]
        have hn : (0xF0 + c.toNat / 0x40000 - 0xF0) * 0x40000 +
            (0x80 + c.toNat / 0x1000 % 0x40 - 0x80) * 0x1000 +
            (0x80 + c.toNat / 0x40 % 0x40 - 0x80) * 0x40 +
            (0x80 + c.toNat % 0x40 - 0x80) = c.toNat := by omega
        rw [hn]

theorem utf8DecodeAux_nil (fuel : Nat) : utf8DecodeAux fuel [] = some [] := by
  cases fuel <;> rfl

theorem utf8DecodeAux_utf8Bytes (c : Char) (rest : List Nat) (fuel : Nat) :
    utf8DecodeAux (fuel + 1) (utf8Bytes c.toNat ++ rest) =
      (utf8DecodeAux fuel rest).map fun cs => c :: cs := by
  obtain ⟨b, bs, hb⟩ := utf8Bytes_cons c.toNat
  rw [hb, List.cons_append, utf8DecodeAux]
  rw [← List.cons_append, ← hb, utf8DecodeChar_utf8Bytes]
  simp only [isValidScalar_toNat c, if_pos, Char.ofNat_toNat]

theorem utf8DecodeAux_utf8Encode (cs : List Char) :
    ∀ fuel rest, cs.length ≤ fuel →
      utf8DecodeAux fuel (utf8Encode cs ++ rest) =
        (utf8DecodeAux (fuel - cs.length) rest).map fun ds => cs ++ ds := by
  induction cs with
  | nil =>
    intro fuel rest _
    simp only [utf8Encode, List.nil_append, List.length_nil, Nat.sub_zero]
    cases utf8DecodeAux fuel rest <;> rfl
  | cons c cs ih =>
    intro fuel rest hfuel
    cases fuel with
    | zero => simp at hfuel
    | succ fuel =>
      have harith : fuel + 1 - (c :: cs).length = fuel - cs.length := by
        simp only [List.length_cons]
        omega
      rw [utf8Encode, List.append_assoc, utf8DecodeAux_utf8Bytes,
        ih fuel rest (by simpa using hfuel), harith, Option.map_map]
      cases utf8DecodeAux (fuel - cs.length) rest <;> rfl

theorem utf8Encode_length (cs : List Char) : cs.length ≤ (utf8Encode cs).length := by
  induction cs with
  | nil => simp [utf8Encode]
  | cons c cs ih =>
    obtain ⟨b, bs, hb⟩ := utf8Bytes_cons c.toNat
    rw [utf8Encode, hb]
    simp only [List.length_append, List.length_cons]
    omega

theorem utf8Decode_utf8Encode (cs : List Char) : utf8Decode (utf8Encode cs) = some cs := by
  unfold utf8Decode
  have h := utf8DecodeAux_utf8Encode cs (utf8Encode cs).length [] (utf8Encode_length cs)
  rw [List.append_nil] at h
  rw [h, utf8DecodeAux_nil]
  simp

/-! ## Percent-encoding: the model of Go's `url.QueryEscape` and its inverse -/

/-- Characters `url.QueryEscape` leaves unescaped: ASCII alphanumerics and
`-`, `_`, `.`, `~` (net/url `shouldEscape` with `encodeQueryComponent`). -/
def isUnreservedChar (c : Char) : Bool :=
  (65 ≤ c.toNat && c.toNat ≤ 90) || (97 ≤ c.toNat && c.toNat ≤ 122) ||
  (48 ≤ c.toNat && c.toNat ≤ 57) ||
  c.toNat = 45 || c.toNat = 95 || c.toNat = 46 || c.toNat = 126

/-- Percent escape `%XY` of one byte, uppercase hexadecimal as in Go's net/url. -/
def pctEncodeByte (b : Nat) : List Char :=
  ['%', hexDigitUpper (b / 16), hexDigitUpper (b % 16)]

/-- Per-character output of `url.QueryEscape`: unreserved characters are kept,
space becomes `+`, anything else becomes the `%XY` escapes of its UTF-8 bytes
(Go escapes byte by byte over the string's UTF-8 representation). -/
def escapeChar (c : Char) : List Char :=
  if isUnreservedChar c then [c]
  else if c = ' ' then ['+']
  else ((utf8Bytes c.toNat).map pctEncodeByte).flatten

/-- Model of Go's `url.QueryEscape`. -/
def queryEscape (s : String) : String := ⟨(s.data.map escapeChar).flatten⟩

/-- Decode the two hexadecimal digits following a `%`, returning the byte and
the remaining input. -/
def pctDecodePair : List Char → Option (Nat × List Char)
  | h :: l :: rest =>
    match hexVal h, hexVal l with
    | some hv, some lv => some (hv * 16 + lv, rest)
    | _, _ => none
  | _ => none

/-- Fueled loop of the percent-decoding byte layer: `%XY` → byte `0xXY`,
`+` → space, a plain ASCII character stands for its own byte. One unit of
fuel per produced byte, so fuel equal to the character count suffices. -/
def pctDecodeAux : Nat → List Char → Option (List Nat)
  | _, [] => some []
  | 0, _ :: _ => none
  | fuel + 1, c :: rest =>
    if c = '%' then
      match pctDecodePair rest with
      | some (b, rest2) => (pctDecodeAux fuel rest2).map fun bs => b :: bs
      | none => none
    else if c = '+' then (pctDecodeAux fuel rest).map fun bs => 32 :: bs
    else if c.toNat < 0x80 then (pctDecodeAux fuel rest).map fun bs => c.toNat :: bs
    else none

/-- Byte layer of percent-decoding. -/
def pctDecodeBytes (cs : List Char) : Option (List Nat) := pctDecodeAux cs.length cs

/-- Percent-decoding: decode the escape layer to bytes, then UTF-8-decode. -/
def percentDecode (s : String) : Option String :=
  (pctDecodeBytes s.data).bind fun bs => (utf8Decode bs).map fun cs => ⟨cs⟩

theorem hexVal_hexDigitUpper (d : Nat) (hd : d < 16) :
    hexVal (hexDigitUpper d) = some d := by
  interval_cases d <;> decide

theorem hexDigitUpper_ne (d : Nat) (hd : d < 16) :
    hexDigitUpper d ≠ '=' ∧ hexDigitUpper d ≠ '&' := by
  interval_cases d <;> decide

theorem pctDecodeAux_nil (fuel : Nat) : pctDecodeAux fuel [] = some [] := by
  cases fuel <;> rfl

theorem pctDecodeAux_mono : ∀ fuel k cs r, pctDecodeAux fuel cs = some r →
    pctDecodeAux (fuel + k) cs = some r := by
  intro fuel
  induction fuel with
  | zero =>
    intro k cs r h
    cases cs with
    | nil =>
      rw [pctDecodeAux_nil] at h
      rw [pctDecodeAux_nil, h]
    | cons c rest => simp [pctDecodeAux] at h
  | succ fuel ih =>
    intro k cs r h
    cases cs with
    | nil =>
      rw [pctDecodeAux_nil] at h
      rw [pctDecodeAux_nil, h]
    | cons c rest =>
      have harith : fuel + 1 + k = (fuel + k) + 1 := by omega
      rw [pctDecodeAux] at h
      rw [harith, pctDecodeAux]
      by_cases hc : c = '%'
      · rw [if_pos hc] at h ⊢
        cases hp : pctDecodePair rest with
        | none =>
          rw [hp] at h
          exact absurd h (by simp)
        | some p =>
          obtain ⟨b, rest2⟩ := p
          rw [hp] at h
          have h' : (pctDecodeAux fuel rest2).map (fun bs => b :: bs) = some r := h
          obtain ⟨bs, hbs, hr⟩ := Option.map_eq_some'.mp h'
          show (pctDecodeAux (fuel + k) rest2).map (fun bs => b :: bs) = some r
          rw [ih k rest2 bs hbs]
          simp [hr]
      · rw [if_neg hc] at h ⊢
        by_cases hpl : c = '+'
        · rw [if_pos hpl] at h ⊢
          obtain ⟨bs, hbs, hr⟩ := Option.map_eq_some'.mp h
          rw [ih k rest bs hbs]
          simp [hr]
        · rw [if_neg hpl] at h ⊢
          by_cases hascii : c.toNat < 0x80
          · rw [if_pos hascii] at h ⊢
            obtain ⟨bs, hbs, hr⟩ := Option.map_eq_some'.mp h
            rw [ih k rest bs hbs]
            simp [hr]
          · rw [if_neg hascii] at h
            exact absurd h (by simp)

theorem pctDecodePair_encode (b : Nat) (hb : b < 256) (rest : List Char) :
    pctDecodePair (hexDigitUpper (b / 16) :: hexDigitUpper (b % 16) :: rest) =
      some (b, rest) := by
  rw [pctDecodePair, hexVal_hexDigitUpper _ (by omega), hexVal_hexDigitUpper _ (by omega)]
  show some (b / 16 * 16 + b % 16, rest) = some (b, rest)
  have hn : b / 16 * 16 + b % 16 = b := by omega
  rw [hn]

theorem pctDecodeAux_byteList (bs : List Nat) (hbs : ∀ b ∈ bs, b < 256) :
    ∀ fuel rest, pctDecodeAux (bs.length + fuel) ((bs.map pctEncodeByte).flatten ++ rest) =
      (pctDecodeAux fuel rest).map fun l => bs ++ l := by
  induction bs with
  | nil =>
    intro fuel rest
    simp only [List.map_nil, List.flatten_nil, List.nil_append, List.length_nil,
      Nat.zero_add]
    cases pctDecodeAux fuel rest <;> rfl
  | cons b bs ih =>
    intro fuel rest
    have harith : (b :: bs).length + fuel = (bs.length + fuel) + 1 := by
      simp only [List.length_cons]
      omega
    rw [harith, List.map_cons, List.flatten_cons, List.append_assoc, pctEncodeByte,
      List.cons_append, List.cons_append, List.cons_append, List.nil_append,
      pctDecodeAux, if_pos rfl,
      pctDecodePair_encode b (hbs b (by simp)) _]
    simp only
    rw [ih (fun x hx => hbs x (by simp [hx])) fuel rest, Option.map_map]
    cases pctDecodeAux fuel rest <;> rfl

theorem isUnreservedChar_facts (c : Char) (h : isUnreservedChar c = true) :
    c.toNat < 0x80 ∧ c.toNat ≠ 37 ∧ c.toNat ≠ 43 ∧ c.toNat ≠ 61 ∧ c.toNat ≠ 38 := by
  simp only [isUnreservedChar, Bool.or_eq_true, Bool.and_eq_true,
    decide_eq_true_eq] at h
  omega

/-- Fuel consumed by `pctDecodeAux` on the escape of one character: one unit
per produced byte. -/
def escapeCost (c : Char) : Nat :=
  if isUnreservedChar c then 1
  else if c = ' ' then 1
  else (utf8Bytes c.toNat).length

theorem pctDecodeAux_escapeChar (c : Char) (fuel : Nat) (rest : List Char) :
    pctDecodeAux (escapeCost c + fuel) (escapeChar c ++ rest) =
      (pctDecodeAux fuel rest).map fun bs => utf8Bytes c.toNat ++ bs := by
  by_cases hu : isUnreservedChar c
  · obtain ⟨hlt, hne37, hne43, _, _⟩ := isUnreservedChar_facts c hu
    rw [escapeChar, if_pos hu, escapeCost, if_pos hu, List.cons_append,
      List.nil_append, Nat.add_comm 1 fuel, pctDecodeAux]
    rw [if_neg (fun hc => hne37 (by rw [hc]; rfl)),
      if_neg (fun hc => hne43 (by rw [hc]; rfl)), if_pos hlt]
    rw [utf8Bytes, if_pos hlt]
    cases pctDecodeAux fuel rest <;> rfl
  · by_cases hsp : c = ' '
    · subst hsp
      rw [escapeChar, if_neg hu, if_pos rfl, escapeCost, if_neg hu, if_pos rfl,
        List.cons_append, List.nil_append, Nat.add_comm 1 fuel, pctDecodeAux]
      rw [if_neg (by decide), if_pos rfl]
      cases pctDecodeAux fuel rest <;> rfl
    · rw [escapeChar, if_neg hu, if_neg hsp, escapeCost, if_neg hu, if_neg hsp,
        pctDecodeAux_byteList _ (utf8Bytes_lt _ (char_toNat_lt c)) fuel rest]

/-- Total fuel consumed by `pctDecodeAux` on the escape of a character list. -/
def escapeCostList : List Char → Nat
  | [] => 0
  | c :: l => escapeCost c + escapeCostList l

theorem pctDecodeAux_escape_list (l : List Char) :
    ∀ fuel rest,
      pctDecodeAux (escapeCostList l + fuel) ((l.map escapeChar).flatten ++ rest) =
        (pctDecodeAux fuel rest).map fun bs => utf8Encode l ++ bs := by
  induction l with
  | nil =>
    intro fuel rest
    simp only [List.map_nil, List.flatten_nil, List.nil_append, escapeCostList,
      Nat.zero_add, utf8Encode]
    cases pctDecodeAux fuel rest <;> rfl
  | cons c l ih =>
    intro fuel rest
    rw [escapeCostList, Nat.add_assoc, List.map_cons, List.flatten_cons,
      List.append_assoc, pctDecodeAux_escapeChar, ih fuel rest, Option.map_map]
    cases pctDecodeAux fuel rest with
    | none => rfl
    | some v => simp [utf8Encode, List.append_assoc]

theorem escapeCost_le (c : Char) : escapeCost c ≤ (escapeChar c).length := by
  rw [escapeCost, escapeChar]
  by_cases hu : isUnreservedChar c
  · rw [if_pos hu, if_pos hu]
    simp
  · rw [if_neg hu, if_neg hu]
    by_cases hsp : c = ' '
    · rw [if_pos hsp, if_pos hsp]
      simp
    · rw [if_neg hsp, if_neg hsp]
      have : ∀ bs : List Nat, bs.length ≤ ((bs.map pctEncodeByte).flatten).length := by
        intro bs
        induction bs with
        | nil => simp
        | cons b bs ih =>
          rw [List.map_cons, List.flatten_cons, List.length_append, pctEncodeByte]
          simp only [List.length_cons]
          omega
      exact this _

theorem escapeCostList_le (l : List Char) :
    escapeCostList l ≤ ((l.map escapeChar).flatten).length := by
  induction l with
  | nil => simp [escapeCostList]
  | cons c l ih =>
    rw [escapeCostList, List.map_cons, List.flatten_cons, List.length_append]
    have := escapeCost_le c
    omega

theorem pctDecodeBytes_escape_list (l : List Char) :
    pctDecodeBytes ((l.map escapeChar).flatten) = some (utf8Encode l) := by
  have h := pctDecodeAux_escape_list l 0 []
  rw [List.append_nil, pctDecodeAux_nil] at h
  have hle := escapeCostList_le l
  have hm := pctDecodeAux_mono (escapeCostList l + 0)
    (((l.map escapeChar).flatten).length - escapeCostList l) _ _ h
  have harith : escapeCostList l + 0 +
      (((l.map escapeChar).flatten).length - escapeCostList l) =
      ((l.map escapeChar).flatten).length := by omega
  rw [harith] at hm
  rw [pctDecodeBytes, hm]
  simp

theorem percentDecode_queryEscape (s : String) :
    percentDecode (queryEscape s) = some s := by
  cases s with
  | mk data =>
    show (pctDecodeBytes ((data.map escapeChar).flatten)).bind _ = _
    rw [pctDecodeBytes_escape_list data]
    show (utf8Decode (utf8Encode data)).map _ = _
    rw [utf8Decode_utf8Encode data]
    rfl

theorem queryEscape_injective {a b : String} (h : queryEscape a = queryEscape b) :
    a = b := by
  have ha := percentDecode_queryEscape a
  rw [h, percentDecode_queryEscape b] at ha
  exact ((Option.some.injEq _ _).mp ha).symm

/-! ## JSON values and their serialization (model of encoding/json) -/

mutual
/-- JSON values producible by Go's `encoding/json` for the structured Go
values the SDK passes to `BuildQueryString`. Numbers are either integers
(`num`, Go's rendering of integer values) or decimal floating literals
(`fnum`: sign, integer part, fraction digits, optional signed exponent —
Go renders finite floats as such literals). Object fields are kept in the
order `encoding/json` emits them (sorted keys for Go maps). -/
inductive JsonVal where
  | null : JsonVal
  | bool (b : Bool) : JsonVal
  | num (i : Int) : JsonVal
  | fnum (neg : Bool) (ip : Nat) (frac : List Char) (ex : Option (Bool × Nat)) : JsonVal
  | str (s : String) : JsonVal
  | arr (xs : JsonArr) : JsonVal
  | obj (fs : JsonObj) : JsonVal

/-- A JSON array: a list of JSON values. -/
inductive JsonArr where
  | nil : JsonArr
  | cons (v : JsonVal) (tl : JsonArr) : JsonArr

/-- A JSON object: an ordered list of key/value members. -/
inductive JsonObj where
  | nil : JsonObj
  | cons (k : String) (v : JsonVal) (tl : JsonObj) : JsonObj
end

/-- Decimal digit test. -/
def isDigitChar (c : Char) : Bool := 48 ≤ c.toNat && c.toNat ≤ 57

/-- Accumulator loop for decimal rendering; fuel bounds the digit count. -/
def natDigitsAux : Nat → Nat → List Char → List Char
  | 0, _, acc => acc
  | fuel + 1, n, acc =>
    if n < 10 then digitChar n :: acc
    else natDigitsAux fuel (n / 10) (digitChar (n % 10) :: acc)

/-- Decimal digit rendering of a natural number, as Go's `fmt`/`strconv`
produce for `%d`. -/
def natToDigits (n : Nat) : List Char := natDigitsAux (n + 1) n []

/-- Reference (non-executable-style) recursion for `natToDigits`, used only
in proofs. -/
def natDigitsRec (n : Nat) : List Char :=
  if n < 10 then [digitChar n] else natDigitsRec (n / 10) ++ [digitChar (n % 10)]
termination_by n
decreasing_by exact Nat.div_lt_self (by omega) (by omega)

/-- Numeric value of a digit string, most significant digit first. -/
def digitsVal (ds : List Char) : Nat := ds.foldl (fun a c => a * 10 + (c.toNat - 48)) 0

/-- Decimal rendering of a Go integer (`fmt` `%d`): minus sign for negative
values followed by the digits of the absolute value. -/
def intToChars (i : Int) : List Char :=
  if i < 0 then '-' :: natToDigits i.natAbs else natToDigits i.toNat

theorem digitChar_toNat (d : Nat) (hd : d < 10) : (digitChar d).toNat = 48 + d := by
  interval_cases d <;> decide

theorem isDigitChar_digitChar (d : Nat) (hd : d < 10) :
    isDigitChar (digitChar d) = true := by
  interval_cases d <;> decide

theorem natDigitsAux_eq_rec :
    ∀ fuel n acc, n < fuel → natDigitsAux fuel n acc = natDigitsRec n ++ acc := by
  intro fuel
  induction fuel with
  | zero => intro n acc h; omega
  | succ fuel ih =>
    intro n acc h
    rw [natDigitsAux]
    by_cases h10 : n < 10
    · rw [if_pos h10, natDigitsRec, if_pos h10]
      rfl
    · rw [if_neg h10, ih (n / 10) _ (by omega)]
      conv_rhs => rw [natDigitsRec]
      rw [if_neg h10, List.append_assoc]
      rfl

theorem natToDigits_eq_rec (n : Nat) : natToDigits n = natDigitsRec n := by
  rw [natToDigits, natDigitsAux_eq_rec (n + 1) n [] (by omega), List.append_nil]

theorem natToDigits_ne_nil (n : Nat) : natToDigits n ≠ [] := by
  rw [natToDigits_eq_rec, natDigitsRec]
  split
  · simp
  · simp

theorem natToDigits_all_digits (n : Nat) :
    ∀ c ∈ natToDigits n, isDigitChar c = true := by
  rw [natToDigits_eq_rec]
  induction n using Nat.strong_induction_on with
  | _ n ih =>
    rw [natDigitsRec]
    split
    · intro c hc
      rw [List.mem_singleton] at hc
      subst hc
      exact isDigitChar_digitChar n (by omega)
    · intro c hc
      rw [List.mem_append] at hc
      rcases hc with hc | hc
      · exact ih (n / 10) (Nat.div_lt_self (by omega) (by omega)) c hc
      · rw [List.mem_singleton] at hc
        subst hc
        exact isDigitChar_digitChar (n % 10) (by omega)

theorem digitsVal_append_one (ds : List Char) (c : Char) :
    digitsVal (ds ++ [c]) = digitsVal ds * 10 + (c.toNat - 48) := by
  rw [digitsVal, digitsVal, List.foldl_append]
  rfl

/-- Whitespace characters of the JSON grammar. -/
def isWsChar (c : Char) : Bool := c = ' ' || c = '\t' || c = '\n' || c = '\r'

/-- Skip leading JSON whitespace. -/
def skipWs : List Char → List Char
  | [] => []
  | c :: cs => if isWsChar c then skipWs cs else c :: cs

/-- Escaping of one string character as encoding/json does it (HTML escaping
on, the Go default): quote and backslash get backslash escapes, \n \r \t use
short forms, other control characters below 0x20 use \u00XX, the
HTML-sensitive characters and U+2028/U+2029 use \uXXXX escapes, everything
else is emitted raw. -/
def escJsonChar (c : Char) : List Char :=
  if c = '"' then ['\\', '"']
  else if c = '\\' then ['\\', '\\']
  else if c = '\n' then ['\\', 'n']
  else if c = '\r' then ['\\', 'r']
  else if c = '\t' then ['\\', 't']
  else if c.toNat < 0x20 then
    ['\\', 'u', '0', '0', hexDigitLower (c.toNat / 16), hexDigitLower (c.toNat % 16)]
  else if c = '<' then ['\\', 'u', '0', '0', '3', 'c']
  else if c = '>' then ['\\', 'u', '0', '0', '3', 'e']
  else if c = '&' then ['\\', 'u', '0', '0', '2', '6']
  else if c.toNat = 0x2028 then ['\\', 'u', '2', '0', '2', '8']
  else if c.toNat = 0x2029 then ['\\', 'u', '2', '0', '2', '9']
  else [c]

/-- Serialized JSON string literal (quotes plus escaped characters). -/
def serStr (s : String) : List Char := '"' :: (s.data.map escJsonChar).flatten ++ ['"']

/-- Exponent part rendering of a float literal: `e`, always a sign, digits
(as Go emits for floats needing an exponent). -/
def serExp : Option (Bool × Nat) → List Char
  | none => []
  | some (es, em) => 'e' :: (if es then '-' else '+') :: natToDigits em

mutual
/-- Serialization of a JSON value as `json.Marshal` emits it: compact, no
interstitial whitespace, object members in stored order. -/
def serJson : JsonVal → List Char
  | .null => 'n' :: 'u' :: ['l', 'l']
  | .bool true => 't' :: 'r' :: ['u', 'e']
  | .bool false => 'f' :: 'a' :: ['l', 's', 'e']
  | .num i => intToChars i
  | .fnum neg ip frac ex =>
    (if neg then ['-'] else []) ++ natToDigits ip ++
      (if frac.isEmpty then [] else '.' :: frac) ++ serExp ex
  | .str s => serStr s
  | .arr xs => '[' :: serArr xs ++ [']']
  | .obj fs => '{' :: serObj fs ++ ['}']

/-- Serialization of the element list of a JSON array (no brackets). -/
def serArr : JsonArr → List Char
  | .nil => []
  | .cons v tl => serJson v ++ serArrRest tl

/-- Serialization of array elements after the first, each preceded by `,`. -/
def serArrRest : JsonArr → List Char
  | .nil => []
  | .cons v tl => ',' :: (serJson v ++ serArrRest tl)

/-- Serialization of the member list of a JSON object (no braces). -/
def serObj : JsonObj → List Char
  | .nil => []
  | .cons k v tl => serStr k ++ ':' :: (serJson v ++ serObjRest tl)

/-- Serialization of object members after the first, each preceded by `,`. -/
def serObjRest : JsonObj → List Char
  | .nil => []
  | .cons k v tl => ',' :: (serStr k ++ ':' :: (serJson v ++ serObjRest tl))
end

/-- Decode four hexadecimal digits (`\uXXXX` escapes). -/
def parseHex4 : List Char → Option (Nat × List Char)
  | a :: b :: c :: d :: rest =>
    match hexVal a, hexVal b, hexVal c, hexVal d with
    | some x, some y, some z, some w => some (((x * 16 + y) * 16 + z) * 16 + w, rest)
    | _, _, _, _ => none
  | _ => none

/-- One escape after a backslash inside a JSON string literal. Surrogate
escapes are replaced by U+FFFD; surrogate-pair combination is not modelled. -/
def parseEscape : List Char → Option (Char × List Char)
  | [] => none
  | c :: rest =>
    if c = '"' then some ('"', rest)
    else if c = '\\' then some ('\\', rest)
    else if c = '/' then some ('/', rest)
    else if c = 'b' then some ('\x08', rest)
    else if c = 'f' then some ('\x0c', rest)
    else if c = 'n' then some ('\n', rest)
    else if c = 'r' then some ('\r', rest)
    else if c = 't' then some ('\t', rest)
    else if c = 'u' then
      match parseHex4 rest with
      | some (n, rest2) =>
        if isValidScalar n then some (Char.ofNat n, rest2)
        else some ('�', rest2)
      | none => none
    else none

/-- Parse the remainder of a JSON string literal after the opening quote;
one unit of fuel per produced character. -/
def parseStringAux : Nat → List Char → Option (List Char × List Char)
  | _, [] => none
  | 0, _ :: _ => none
  | fuel + 1, c :: rest =>
    if c = '"' then some ([], rest)
    else if c = '\\' then
      match parseEscape rest with
      | some (d, rest2) =>
        (parseStringAux fuel rest2).map fun p => (d :: p.1, p.2)
      | none => none
    else (parseStringAux fuel rest).map fun p => (c :: p.1, p.2)

/-- Check that the input starts with the given characters and drop them. -/
def expectChars : List Char → List Char → Option (List Char)
  | [], cs => some cs
  | p :: ps, c :: cs => if c = p then expectChars ps cs else none
  | _ :: _, [] => none

/-- Parse a JSON number token. Pure integer literals give `.num`; a fraction
or exponent part gives `.fnum`. Leading-zero restrictions of the JSON
grammar are not enforced (a modelling relaxation). -/
def parseNumber (cs : List Char) : Option (JsonVal × List Char) :=
  let neg := cs.head? = some '-'
  let cs1 := if neg then cs.tail else cs
  let ds := cs1.takeWhile isDigitChar
  let cs2 := cs1.dropWhile isDigitChar
  if ds.isEmpty then none
  else
    let ip := digitsVal ds
    let hasFrac := cs2.head? = some '.'
    let fds := if hasFrac then cs2.tail.takeWhile isDigitChar else []
    let cs3 := if hasFrac then cs2.tail.dropWhile isDigitChar else cs2
    if hasFrac ∧ fds.isEmpty then none
    else
      let hasExp := cs3.head? = some 'e' ∨ cs3.head? = some 'E'
      let cs4 := if hasExp then cs3.tail else cs3
      let esign := cs4.head? = some '-'
      let cs5 := if cs4.head? = some '-' ∨ cs4.head? = some '+' then cs4.tail else cs4
      let eds := if hasExp then cs5.takeWhile isDigitChar else []
      let cs6 := if hasExp then cs5.dropWhile isDigitChar else cs3
      if hasExp ∧ eds.isEmpty then none
      else if ¬hasFrac ∧ ¬hasExp then
        some (.num (if neg then -(ip : Int) else (ip : Int)), cs2)
      else
        some (.fnum neg ip fds (if hasExp then some (esign, digitsVal eds) else none), cs6)

mutual
/-- Fueled JSON value parser (syntax layer of `encoding/json`); fuel
decreases on every nested parse, and the serialized size of a value bounds
the fuel it needs. -/
def parseVal : Nat → List Char → Option (JsonVal × List Char)
  | 0, _ => none
  | fuel + 1, cs =>
    match skipWs cs with
    | [] => none
    | c :: rest =>
      if c = 'n' then (expectChars ['u', 'l', 'l'] rest).map fun r => (JsonVal.null, r)
      else if c = 't' then
        (expectChars ['r', 'u', 'e'] rest).map fun r => (JsonVal.bool true, r)
      else if c = 'f' then
        (expectChars ['a', 'l', 's', 'e'] rest).map fun r => (JsonVal.bool false, r)
      else if c = '"' then
        (parseStringAux rest.length rest).map fun p => (JsonVal.str ⟨p.1⟩, p.2)
      else if c = '[' then
        let rest1 := skipWs rest
        if rest1.head? = some ']' then some (JsonVal.arr JsonArr.nil, rest1.tail)
        else (parseArrElems fuel rest1).map fun p => (JsonVal.arr p.1, p.2)
      else if c = '{' then
        let rest1 := skipWs rest
        if rest1.head? = some '}' then some (JsonVal.obj JsonObj.nil, rest1.tail)
        else (parseObjMems fuel rest1).map fun p => (JsonVal.obj p.1, p.2)
      else if c = '-' ∨ isDigitChar c then parseNumber (c :: rest)
      else none

/-- Parse one or more array elements followed by the closing bracket. -/
def parseArrElems : Nat → List Char → Option (JsonArr × List Char)
  | 0, _ => none
  | fuel + 1, cs =>
    match parseVal fuel cs with
    | none => none
    | some (v, rem) =>
      let rem1 := skipWs rem
      if rem1.head? = some ',' then
        (parseArrElems fuel rem1.tail).map fun p => (JsonArr.cons v p.1, p.2)
      else if rem1.head? = some ']' then some (JsonArr.cons v JsonArr.nil, rem1.tail)
      else none

/-- Parse one or more object members followed by the closing brace. -/
def parseObjMems : Nat → List Char → Option (JsonObj × List Char)
  | 0, _ => none
  | fuel + 1, cs =>
    let cs1 := skipWs cs
    if cs1.head? = some '"' then
      match parseStringAux cs1.tail.length cs1.tail with
      | none => none
      | some (kcs, rem) =>
        let rem1 := skipWs rem
        if rem1.head? = some ':' then
          match parseVal fuel rem1.tail with
          | none => none
          | some (v, rem2) =>
            let rem3 := skipWs rem2
            if rem3.head? = some ',' then
              (parseObjMems fuel rem3.tail).map fun p => (JsonObj.cons ⟨kcs⟩ v p.1, p.2)
            else if rem3.head? = some '}' then
              some (JsonObj.cons ⟨kcs⟩ v JsonObj.nil, rem3.tail)
            else none
        else none
    else none
end

/-- Parse a JSON text: one value, then only whitespace may remain. The fuel
`length + 1` always suffices because every nested value consumes input. -/
def jsonParse (s : String) : Option JsonVal :=
  match parseVal (s.data.length + 1) s.data with
  | some (v, rem) => if (skipWs rem).isEmpty then some v else none
  | none => none

theorem digitsVal_natToDigits (n : Nat) : digitsVal (natToDigits n) = n := by
  rw [natToDigits_eq_rec]
  induction n using Nat.strong_induction_on with
  | _ n ih =>
    rw [natDigitsRec]
    split
    · rw [digitsVal]
      simp only [List.foldl_cons, List.foldl_nil]
      rw [digitChar_toNat n (by omega)]
      omega
    · rw [digitsVal_append_one, ih (n / 10) (Nat.div_lt_self (by omega) (by omega)),
        digitChar_toNat (n % 10) (by omega)]
      omega

/-- Every character of `queryEscape` output: it is never `=` and never `&`
(both are escaped), so `=`/`&` in a built query string only come from the
joins inserted by `BuildQueryString` itself. -/
theorem mem_queryEscape_ne (s : String) :
    ∀ c ∈ (queryEscape s).data, c ≠ '=' ∧ c ≠ '&' := by
  show ∀ c ∈ (s.data.map escapeChar).flatten, _
  intro c hc
  rw [List.mem_flatten] at hc
  obtain ⟨l, hl, hcl⟩ := hc
  rw [List.mem_map] at hl
  obtain ⟨d, _, hd⟩ := hl
  subst hd
  rw [escapeChar] at hcl
  split at hcl
  · obtain ⟨_, _, _, h61, h38⟩ := isUnreservedChar_facts d (by assumption)
    rw [List.mem_singleton] at hcl
    subst hcl
    exact ⟨fun hc => h61 (by rw [hc]; rfl), fun hc => h38 (by rw [hc]; rfl)⟩
  · split at hcl
    · rw [List.mem_singleton] at hcl
      subst hcl
      exact ⟨by decide, by decide⟩
    · rw [List.mem_flatten] at hcl
      obtain ⟨l2, hl2, hcl2⟩ := hcl
      rw [List.mem_map] at hl2
      obtain ⟨b, hb, hbl⟩ := hl2
      subst hbl
      have hb256 := utf8Bytes_lt _ (char_toNat_lt d) b hb
      rw [pctEncodeByte] at hcl2
      simp only [List.mem_cons, List.mem_singleton, List.not_mem_nil,
        or_false] at hcl2
      rcases hcl2 with h | h | h
      · subst h
        exact ⟨by decide, by decide⟩
      · subst h
        exact hexDigitUpper_ne _ (by omega)
      · subst h
        exact hexDigitUpper_ne _ (by omega)


theorem takeWhile_all_append (p : Char → Bool) :
    ∀ (xs rest : List Char), (∀ c ∈ xs, p c = true) →
      (∀ c, rest.head? = some c → p c = false) →
      (xs ++ rest).takeWhile p = xs ∧ (xs ++ rest).dropWhile p = rest := by
  intro xs
  induction xs with
  | nil =>
    intro rest _ hr
    simp only [List.nil_append]
    cases rest with
    | nil => simp
    | cons c t =>
      have hc := hr c rfl
      rw [List.takeWhile_cons, List.dropWhile_cons, hc]
      simp
  | cons x xs ih =>
    intro rest hall hr
    have hx := hall x (by simp)
    rw [List.cons_append, List.takeWhile_cons, List.dropWhile_cons, hx]
    have h2 := ih rest (fun c hc => hall c (by simp [hc])) hr
    simp only [if_true]
    exact ⟨by rw [h2.1], by rw [h2.2]⟩

/-- Characters that may follow a serialized JSON value inside a larger
serialized value: a separator or closing bracket, or end of input. -/
def delimHead : List Char → Prop
  | [] => True
  | c :: _ => c = ',' ∨ c = '}' ∨ c = ']'

theorem delimHead_facts (rest : List Char) (hd : delimHead rest) :
    ∀ c, rest.head? = some c →
      isDigitChar c = false ∧ isWsChar c = false ∧ c ≠ '.' ∧ c ≠ 'e' ∧ c ≠ 'E' ∧
        c ≠ '-' ∧ c ≠ '+' ∧ c ≠ '"' := by
  intro c hc
  cases rest with
  | nil => simp at hc
  | cons d t =>
    rw [List.head?_cons, Option.some.injEq] at hc
    subst hc
    rcases hd with h | h | h <;> subst h <;> decide

theorem natToDigits_cons (n : Nat) : ∃ d ds, natToDigits n = d :: ds := by
  cases h : natToDigits n with
  | nil => exact absurd h (natToDigits_ne_nil _)
  | cons a b => exact ⟨a, b, rfl⟩

theorem parseNumber_nat (n : Nat) (rest : List Char) (hd : delimHead rest) :
    parseNumber (natToDigits n ++ rest) = some (.num (n : Int), rest) := by
  have hdf := delimHead_facts rest hd
  obtain ⟨d0, ds', hds⟩ := natToDigits_cons n
  have htw := takeWhile_all_append isDigitChar (natToDigits n) rest
    (natToDigits_all_digits _) (fun c hc => (hdf c hc).1)
  have hd0 : isDigitChar d0 = true := natToDigits_all_digits n d0 (by rw [hds]; simp)
  have hd0n : 48 ≤ d0.toNat ∧ d0.toNat ≤ 57 := by
    simp only [isDigitChar, Bool.and_eq_true, decide_eq_true_eq] at hd0
    omega
  have hfr : ¬((natToDigits n ++ rest).dropWhile isDigitChar).head? = some '.' := by
    rw [htw.2]; intro h; exact (hdf '.' h).2.2.1 rfl
  have hex1 : ¬((natToDigits n ++ rest).dropWhile isDigitChar).head? = some 'e' := by
    rw [htw.2]; intro h; exact (hdf 'e' h).2.2.2.1 rfl
  have hex2 : ¬((natToDigits n ++ rest).dropWhile isDigitChar).head? = some 'E' := by
    rw [htw.2]; intro h; exact (hdf 'E' h).2.2.2.2.1 rfl
  have hneg : ¬(natToDigits n ++ rest).head? = some '-' := by
    rw [hds, List.cons_append, List.head?_cons]
    intro h
    rw [Option.some.injEq] at h
    subst h
    simp at hd0n
  have hfr2 : ¬rest.head? = some '.' := fun h => (hdf '.' h).2.2.1 rfl
  have hexa : ¬rest.head? = some 'e' := fun h => (hdf 'e' h).2.2.2.1 rfl
  have hexb : ¬rest.head? = some 'E' := fun h => (hdf 'E' h).2.2.2.2.1 rfl
  have hie : (natToDigits n).isEmpty = false := by rw [hds]; rfl
  simp only [parseNumber, if_neg hneg]
  simp only [htw.1, htw.2]
  simp only [if_neg hfr2]
  simp [hfr2, hexa, hexb, hie, digitsVal_natToDigits]

theorem parseNumber_int (i : Int) (rest : List Char) (hd : delimHead rest) :
    parseNumber (intToChars i ++ rest) = some (.num i, rest) := by
  by_cases hneg : i < 0
  · rw [intToChars, if_pos hneg, List.cons_append]
    have hdf := delimHead_facts rest hd
    have htw := takeWhile_all_append isDigitChar (natToDigits i.natAbs) rest
      (natToDigits_all_digits _) (fun c hc => (hdf c hc).1)
    have hfr2 : ¬rest.head? = some '.' := fun h => (hdf '.' h).2.2.1 rfl
    have hexa : ¬rest.head? = some 'e' := fun h => (hdf 'e' h).2.2.2.1 rfl
    have hexb : ¬rest.head? = some 'E' := fun h => (hdf 'E' h).2.2.2.2.1 rfl
    have hie : (natToDigits i.natAbs).isEmpty = false := by
      obtain ⟨d0, ds', hds⟩ := natToDigits_cons i.natAbs
      rw [hds]
      rfl
    have hpos : ('-' :: (natToDigits i.natAbs ++ rest)).head? = some '-' := rfl
    simp only [parseNumber, if_pos hpos, List.tail_cons]
    simp only [htw.1, htw.2]
    simp only [if_neg hfr2]
    have hval : -(digitsVal (natToDigits i.natAbs) : Int) = i := by
      rw [digitsVal_natToDigits]
      omega
    simp [hfr2, hexa, hexb, hie, hval]
  · rw [intToChars, if_neg hneg, parseNumber_nat i.toNat rest hd]
    have : (i.toNat : Int) = i := by omega
    rw [this]

theorem frac_all_digits (f0 : Char) (fr : List Char)
    (hwD : (f0 :: fr).all isDigitChar = true) : ∀ c ∈ f0 :: fr, isDigitChar c = true := by
  intro c hc
  exact List.all_eq_true.mp hwD c hc

theorem head_not_of_ne {a b : Char} (X : List Char) (hne : a ≠ b) :
    ¬(a :: X).head? = some b := fun h => by
  rw [List.head?_cons, Option.some.injEq] at h
  exact hne h

theorem natToDigits_head_not_dash (ip : Nat) (X : List Char) :
    ((natToDigits ip ++ X).head? = some '-') = False := by
  obtain ⟨d0, ds', hds⟩ := natToDigits_cons ip
  have hd0 := natToDigits_all_digits ip d0 (by rw [hds]; simp)
  rw [hds, List.cons_append]
  simp only [eq_iff_iff, iff_false]
  intro h
  rw [List.head?_cons, Option.some.injEq] at h
  subst h
  simp [isDigitChar] at hd0

theorem dash_head (X : List Char) : (('-' :: X).head? = some '-') = True := by
  simp

theorem tw_digits_cons (n : Nat) (c : Char) (hc : isDigitChar c = false)
    (tl : List Char) :
    (natToDigits n ++ c :: tl).takeWhile isDigitChar = natToDigits n ∧
      (natToDigits n ++ c :: tl).dropWhile isDigitChar = c :: tl :=
  takeWhile_all_append _ _ _ (natToDigits_all_digits n)
    (by intro ch hch; rw [List.head?_cons, Option.some.injEq] at hch; subst hch; exact hc)

theorem parseNumber_fnum (neg : Bool) (ip : Nat) (frac : List Char)
    (ex : Option (Bool × Nat)) (hwD : frac.all isDigitChar = true)
    (hwE : frac ≠ [] ∨ ex ≠ none) (rest : List Char) (hd : delimHead rest) :
    parseNumber (((if neg then ['-'] else []) ++ natToDigits ip ++
        (if frac.isEmpty then [] else '.' :: frac) ++ serExp ex) ++ rest) =
      some (.fnum neg ip frac ex, rest) := by
  have hdf := delimHead_facts rest hd
  have hfr2 : ¬rest.head? = some '.' := fun h => (hdf '.' h).2.2.1 rfl
  have hexa : ¬rest.head? = some 'e' := fun h => (hdf 'e' h).2.2.2.1 rfl
  have hexb : ¬rest.head? = some 'E' := fun h => (hdf 'E' h).2.2.2.2.1 rfl
  have hieI : (natToDigits ip).isEmpty = false := by
    obtain ⟨d0, ds', hds⟩ := natToDigits_cons ip
    rw [hds]
    rfl
  have htwIe : ∀ tl, (natToDigits ip ++ 'e' :: tl).takeWhile isDigitChar
      = natToDigits ip := fun tl => (tw_digits_cons ip 'e' (by decide) tl).1
  have htwIe2 : ∀ tl, (natToDigits ip ++ 'e' :: tl).dropWhile isDigitChar
      = 'e' :: tl := fun tl => (tw_digits_cons ip 'e' (by decide) tl).2
  have htwId : ∀ tl, (natToDigits ip ++ '.' :: tl).takeWhile isDigitChar
      = natToDigits ip := fun tl => (tw_digits_cons ip '.' (by decide) tl).1
  have htwId2 : ∀ tl, (natToDigits ip ++ '.' :: tl).dropWhile isDigitChar
      = '.' :: tl := fun tl => (tw_digits_cons ip '.' (by decide) tl).2
  rcases frac with _ | ⟨f0, fr⟩
  · rcases ex with _ | ⟨es, em⟩
    · simp at hwE
    · have htwE := takeWhile_all_append isDigitChar (natToDigits em) rest
        (natToDigits_all_digits _) (fun c hc => (hdf c hc).1)
      have hieE : (natToDigits em).isEmpty = false := by
        obtain ⟨d0, ds', hds⟩ := natToDigits_cons em
        rw [hds]
        rfl
      cases neg
      · cases es
        · simp only [serExp, List.isEmpty_nil, if_true, if_false, Bool.false_eq_true, List.nil_append, List.cons_append, List.append_assoc, List.append_nil]
          simp only [parseNumber, natToDigits_head_not_dash, if_false, htwIe, htwIe2]
          simp [hieI, hieE, htwE.1, htwE.2, digitsVal_natToDigits, hfr2, hexa, hexb]
        · simp only [serExp, List.isEmpty_nil, if_true, if_false, Bool.false_eq_true, List.nil_append, List.cons_append, List.append_assoc, List.append_nil]
          simp only [parseNumber, natToDigits_head_not_dash, if_false, htwIe, htwIe2]
          simp [hieI, hieE, htwE.1, htwE.2, digitsVal_natToDigits, hfr2, hexa, hexb]
      · cases es
        · simp only [serExp, List.isEmpty_nil, if_true, if_false, Bool.false_eq_true, List.nil_append, List.cons_append, List.append_assoc, List.append_nil]
          simp only [parseNumber, dash_head, if_true, decide_True, List.tail_cons, htwIe, htwIe2]
          simp [hieI, hieE, htwE.1, htwE.2, digitsVal_natToDigits, hfr2, hexa, hexb]
        · simp only [serExp, List.isEmpty_nil, if_true, if_false, Bool.false_eq_true, List.nil_append, List.cons_append, List.append_assoc, List.append_nil]
          simp only [parseNumber, dash_head, if_true, decide_True, List.tail_cons, htwIe, htwIe2]
          simp [hieI, hieE, htwE.1, htwE.2, digitsVal_natToDigits, hfr2, hexa, hexb]
  · have hfall : ∀ c ∈ f0 :: fr, isDigitChar c = true := fun c hc =>
      List.all_eq_true.mp hwD c hc
    rcases ex with _ | ⟨es, em⟩
    · have htwF := takeWhile_all_append isDigitChar (f0 :: fr) rest hfall
        (fun c hc => (hdf c hc).1)
      have htwF1 : List.takeWhile isDigitChar (f0 :: (fr ++ rest)) = f0 :: fr := by
        rw [← List.cons_append]
        exact htwF.1
      have htwF2 : List.dropWhile isDigitChar (f0 :: (fr ++ rest)) = rest := by
        rw [← List.cons_append]
        exact htwF.2
      have hf0 : isDigitChar f0 = true := hfall f0 (by simp)
      cases neg
      · simp only [serExp, List.isEmpty_cons, if_true, if_false, Bool.false_eq_true, List.nil_append, List.cons_append, List.append_assoc, List.append_nil]
        simp only [parseNumber, natToDigits_head_not_dash, if_false, htwId, htwId2]
        simp [hieI, htwF1, htwF2, hf0, digitsVal_natToDigits, hfr2, hexa, hexb]
      · simp only [serExp, List.isEmpty_cons, if_true, if_false, Bool.false_eq_true, List.nil_append, List.cons_append, List.append_assoc, List.append_nil]
        simp only [parseNumber, dash_head, if_true, decide_True, List.tail_cons, htwId, htwId2]
        simp [hieI, htwF1, htwF2, hf0, digitsVal_natToDigits, hfr2, hexa, hexb]
    · have htwFe : ∀ tl, ((f0 :: fr) ++ 'e' :: tl).takeWhile isDigitChar = f0 :: fr :=
        fun tl => (takeWhile_all_append isDigitChar (f0 :: fr) ('e' :: tl) hfall
          (by intro c hc; rw [List.head?_cons, Option.some.injEq] at hc
              subst hc; decide)).1
      have htwFe2 : ∀ tl, ((f0 :: fr) ++ 'e' :: tl).dropWhile isDigitChar = 'e' :: tl :=
        fun tl => (takeWhile_all_append isDigitChar (f0 :: fr) ('e' :: tl) hfall
          (by intro c hc; rw [List.head?_cons, Option.some.injEq] at hc
              subst hc; decide)).2
      have htwE := takeWhile_all_append isDigitChar (natToDigits em) rest
        (natToDigits_all_digits _) (fun c hc => (hdf c hc).1)
      have hieE : (natToDigits em).isEmpty = false := by
        obtain ⟨d0, ds', hds⟩ := natToDigits_cons em
        rw [hds]
        rfl
      have htwFe1 : ∀ tl, List.takeWhile isDigitChar (f0 :: (fr ++ 'e' :: tl))
          = f0 :: fr := fun tl => by
        rw [← List.cons_append]
        exact htwFe tl
      have htwFe2x : ∀ tl, List.dropWhile isDigitChar (f0 :: (fr ++ 'e' :: tl))
          = 'e' :: tl := fun tl => by
        rw [← List.cons_append]
        exact htwFe2 tl
      have hf0 : isDigitChar f0 = true := hfall f0 (by simp)
      cases neg
      · cases es
        · simp only [serExp, List.isEmpty_cons, if_true, if_false, Bool.false_eq_true, List.nil_append, List.cons_append, List.append_assoc, List.append_nil]
          simp only [parseNumber, natToDigits_head_not_dash, if_false, htwId, htwId2]
          simp [hieI, hieE, htwFe1, htwFe2x, hf0, htwE.1, htwE.2, digitsVal_natToDigits, hfr2, hexa, hexb]
        · simp only [serExp, List.isEmpty_cons, if_true, if_false, Bool.false_eq_true, List.nil_append, List.cons_append, List.append_assoc, List.append_nil]
          simp only [parseNumber, natToDigits_head_not_dash, if_false, htwId, htwId2]
          simp [hieI, hieE, htwFe1, htwFe2x, hf0, htwE.1, htwE.2, digitsVal_natToDigits, hfr2, hexa, hexb]
      · cases es
        · simp only [serExp, List.isEmpty_cons, if_true, if_false, Bool.false_eq_true, List.nil_append, List.cons_append, List.append_assoc, List.append_nil]
          simp only [parseNumber, dash_head, if_true, decide_True, List.tail_cons, htwId, htwId2]
          simp [hieI, hieE, htwFe1, htwFe2x, hf0, htwE.1, htwE.2, digitsVal_natToDigits, hfr2, hexa, hexb]
        · simp only [serExp, List.isEmpty_cons, if_true, if_false, Bool.false_eq_true, List.nil_append, List.cons_append, List.append_assoc, List.append_nil]
          simp only [parseNumber, dash_head, if_true, decide_True, List.tail_cons, htwId, htwId2]
          simp [hieI, hieE, htwFe1, htwFe2x, hf0, htwE.1, htwE.2, digitsVal_natToDigits, hfr2, hexa, hexb]


theorem escJsonChar_length (c : Char) : 1 ≤ (escJsonChar c).length := by
  by_cases h1 : c = '"'
  · rw [escJsonChar, if_pos h1]
    simp only [List.length_cons, List.length_nil]
    omega
  ·
    by_cases h2 : c = '\\'
    · rw [escJsonChar, if_neg h1, if_pos h2]
      simp only [List.length_cons, List.length_nil]
      omega
    ·
      by_cases h3 : c = '\n'
      · rw [escJsonChar, if_neg h1, if_neg h2, if_pos h3]
        simp only [List.length_cons, List.length_nil]
        omega
      ·
        by_cases h4 : c = '\r'
        · rw [escJsonChar, if_neg h1, if_neg h2, if_neg h3, if_pos h4]
          simp only [List.length_cons, List.length_nil]
          omega
        ·
          by_cases h5 : c = '\t'
          · rw [escJsonChar, if_neg h1, if_neg h2, if_neg h3, if_neg h4, if_pos h5]
            simp only [List.length_cons, List.length_nil]
            omega
          ·
            by_cases h6 : c.toNat < 0x20
            · rw [escJsonChar, if_neg h1, if_neg h2, if_neg h3, if_neg h4, if_neg h5, if_pos h6]
              simp only [List.length_cons, List.length_nil]
              omega
            ·
              by_cases h7 : c = '<'
              · rw [escJsonChar, if_neg h1, if_neg h2, if_neg h3, if_neg h4, if_neg h5, if_neg h6, if_pos h7]
                simp only [List.length_cons, List.length_nil]
                omega
              ·
                by_cases h8 : c = '>'
                · rw [escJsonChar, if_neg h1, if_neg h2, if_neg h3, if_neg h4, if_neg h5, if_neg h6, if_neg h7, if_pos h8]
                  simp only [List.length_cons, List.length_nil]
                  omega
                ·
                  by_cases h9 : c = '&'
                  · rw [escJsonChar, if_neg h1, if_neg h2, if_neg h3, if_neg h4, if_neg h5, if_neg h6, if_neg h7, if_neg h8, if_pos h9]
                    simp only [List.length_cons, List.length_nil]
                    omega
                  ·
                    by_cases h10 : c.toNat = 0x2028
                    · rw [escJsonChar, if_neg h1, if_neg h2, if_neg h3, if_neg h4, if_neg h5, if_neg h6, if_neg h7, if_neg h8, if_neg h9, if_pos h10]
                      simp only [List.length_cons, List.length_nil]
                      omega
                    ·
                      by_cases h11 : c.toNat = 0x2029
                      · rw [escJsonChar, if_neg h1, if_neg h2, if_neg h3, if_neg h4, if_neg h5, if_neg h6, if_neg h7, if_neg h8, if_neg h9, if_neg h10, if_pos h11]
                        simp only [List.length_cons, List.length_nil]
                        omega
                      ·
                        rw [escJsonChar, if_neg h1, if_neg h2, if_neg h3, if_neg h4, if_neg h5, if_neg h6, if_neg h7, if_neg h8, if_neg h9, if_neg h10, if_neg h11]
                        simp only [List.length_cons, List.length_nil]
                        omega

theorem hexVal_hexDigitLower (d : Nat) (hd : d < 16) :
    hexVal (hexDigitLower d) = some d := by
  interval_cases d <;> decide

theorem parseStringAux_escChar (c : Char) (k : Nat) (tl : List Char) :
    parseStringAux (k + 1) (escJsonChar c ++ tl) =
      (parseStringAux k tl).map fun p => (c :: p.1, p.2) := by
  by_cases h1 : c = '"'
  · rw [escJsonChar, if_pos h1]
    subst h1
    rw [List.cons_append, List.cons_append, List.nil_append, parseStringAux,
      if_neg (by decide), if_pos rfl]
    rw [show parseEscape ('\"' :: tl) = some ('\"', tl) from rfl]
  ·
    by_cases h2 : c = '\\'
    · rw [escJsonChar, if_neg h1, if_pos h2]
      subst h2
      rw [List.cons_append, List.cons_append, List.nil_append, parseStringAux,
        if_neg (by decide), if_pos rfl]
      rw [show parseEscape ('\\' :: tl) = some ('\\', tl) from rfl]
    ·
      by_cases h3 : c = '\n'
      · rw [escJsonChar, if_neg h1, if_neg h2, if_pos h3]
        subst h3
        rw [List.cons_append, List.cons_append, List.nil_append, parseStringAux,
          if_neg (by decide), if_pos rfl]
        rw [show parseEscape ('n' :: tl) = some ('\n', tl) from rfl]
      ·
        by_cases h4 : c = '\r'
        · rw [escJsonChar, if_neg h1, if_neg h2, if_neg h3, if_pos h4]
          subst h4
          rw [List.cons_append, List.cons_append, List.nil_append, parseStringAux,
            if_neg (by decide), if_pos rfl]
          rw [show parseEscape ('r' :: tl) = some ('\r', tl) from rfl]
        ·
          by_cases h5 : c = '\t'
          · rw [escJsonChar, if_neg h1, if_neg h2, if_neg h3, if_neg h4, if_pos h5]
            subst h5
            rw [List.cons_append, List.cons_append, List.nil_append, parseStringAux,
              if_neg (by decide), if_pos rfl]
            rw [show parseEscape ('t' :: tl) = some ('\t', tl) from rfl]
          ·
            by_cases h6 : c.toNat < 0x20
            · rw [escJsonChar, if_neg h1, if_neg h2, if_neg h3, if_neg h4, if_neg h5, if_pos h6]
              simp only [List.cons_append, List.nil_append]
              rw [parseStringAux, if_neg (by decide), if_pos rfl]
              have hesc : parseEscape ('u' :: '0' :: '0' :: hexDigitLower (c.toNat / 16) ::
                  hexDigitLower (c.toNat % 16) :: tl) = some (c, tl) := by
                rw [parseEscape]
                rw [if_neg (by decide), if_neg (by decide), if_neg (by decide),
                  if_neg (by decide), if_neg (by decide), if_neg (by decide),
                  if_neg (by decide), if_neg (by decide), if_pos rfl]
                rw [parseHex4]
                rw [show hexVal '0' = some 0 from rfl,
                  hexVal_hexDigitLower (c.toNat / 16) (by omega),
                  hexVal_hexDigitLower (c.toNat % 16) (by omega)]
                simp only
                have hv : ((0 * 16 + 0) * 16 + c.toNat / 16) * 16 + c.toNat % 16 = c.toNat := by
                  omega
                rw [hv]
                rw [if_pos (by simp only [isValidScalar, Bool.or_eq_true, decide_eq_true_eq,
                  Bool.and_eq_true]; omega), Char.ofNat_toNat]
              rw [hesc]
            ·
              by_cases h7 : c = '<'
              · rw [escJsonChar, if_neg h1, if_neg h2, if_neg h3, if_neg h4, if_neg h5, if_neg h6, if_pos h7]
                subst h7
                simp only [List.cons_append, List.nil_append]
                rw [parseStringAux, if_neg (by decide), if_pos rfl]
                rw [show parseEscape ('u' :: '0' :: '0' :: '3' :: 'c' :: tl) = some ('<', tl)
                  from rfl]
              ·
                by_cases h8 : c = '>'
                · rw [escJsonChar, if_neg h1, if_neg h2, if_neg h3, if_neg h4, if_neg h5, if_neg h6, if_neg h7, if_pos h8]
                  subst h8
                  simp only [List.cons_append, List.nil_append]
                  rw [parseStringAux, if_neg (by decide), if_pos rfl]
                  rw [show parseEscape ('u' :: '0' :: '0' :: '3' :: 'e' :: tl) = some ('>', tl)
                    from rfl]
                ·
                  by_cases h9 : c = '&'
                  · rw [escJsonChar, if_neg h1, if_neg h2, if_neg h3, if_neg h4, if_neg h5, if_neg h6, if_neg h7, if_neg h8, if_pos h9]
                    subst h9
                    simp only [List.cons_append, List.nil_append]
                    rw [parseStringAux, if_neg (by decide), if_pos rfl]
                    rw [show parseEscape ('u' :: '0' :: '0' :: '2' :: '6' :: tl) = some ('&', tl)
                      from rfl]
                  ·
                    by_cases h10 : c.toNat = 0x2028
                    · rw [escJsonChar, if_neg h1, if_neg h2, if_neg h3, if_neg h4, if_neg h5, if_neg h6, if_neg h7, if_neg h8, if_neg h9, if_pos h10]
                      simp only [List.cons_append, List.nil_append]
                      rw [parseStringAux, if_neg (by decide), if_pos rfl]
                      rw [show parseEscape ('u' :: '2' :: '0' :: '2' :: '8' :: tl)
                        = some (Char.ofNat 0x2028, tl) from rfl]
                      rw [show Char.ofNat 0x2028 = c from by rw [← h10, Char.ofNat_toNat]]
                    ·
                      by_cases h11 : c.toNat = 0x2029
                      · rw [escJsonChar, if_neg h1, if_neg h2, if_neg h3, if_neg h4, if_neg h5, if_neg h6, if_neg h7, if_neg h8, if_neg h9, if_neg h10, if_pos h11]
                        simp only [List.cons_append, List.nil_append]
                        rw [parseStringAux, if_neg (by decide), if_pos rfl]
                        rw [show parseEscape ('u' :: '2' :: '0' :: '2' :: '9' :: tl)
                          = some (Char.ofNat 0x2029, tl) from rfl]
                        rw [show Char.ofNat 0x2029 = c from by rw [← h11, Char.ofNat_toNat]]
                      ·
                        rw [escJsonChar, if_neg h1, if_neg h2, if_neg h3, if_neg h4, if_neg h5, if_neg h6, if_neg h7, if_neg h8, if_neg h9, if_neg h10, if_neg h11]
                        rw [List.cons_append, List.nil_append, parseStringAux, if_neg h1, if_neg h2]

theorem parseStringAux_mono : ∀ fuel k cs r, parseStringAux fuel cs = some r →
    parseStringAux (fuel + k) cs = some r := by
  intro fuel
  induction fuel with
  | zero =>
    intro k cs r h
    cases cs with
    | nil => simp [parseStringAux] at h
    | cons c rest => simp [parseStringAux] at h
  | succ fuel ih =>
    intro k cs r h
    cases cs with
    | nil => simp [parseStringAux] at h
    | cons c rest =>
      have harith : fuel + 1 + k = (fuel + k) + 1 := by omega
      rw [parseStringAux] at h
      rw [harith, parseStringAux]
      by_cases hq : c = '"'
      · rw [if_pos hq] at h ⊢
        exact h
      · rw [if_neg hq] at h ⊢
        by_cases hb : c = '\\'
        · rw [if_pos hb] at h ⊢
          cases hp : parseEscape rest with
          | none =>
            rw [hp] at h
            exact absurd h (by simp)
          | some p =>
            obtain ⟨d, rest2⟩ := p
            rw [hp] at h
            have h' : (parseStringAux fuel rest2).map
                (fun p => (d :: p.1, p.2)) = some r := h
            obtain ⟨q, hq2, hr⟩ := Option.map_eq_some'.mp h'
            show (parseStringAux (fuel + k) rest2).map (fun p => (d :: p.1, p.2)) = some r
            rw [ih k rest2 q hq2]
            simp [hr]
        · rw [if_neg hb] at h ⊢
          obtain ⟨q, hq2, hr⟩ := Option.map_eq_some'.mp h
          rw [ih k rest q hq2]
          simp [hr]

theorem parseStringAux_escape (l : List Char) :
    ∀ tl, parseStringAux (l.length + 1) ((l.map escJsonChar).flatten ++ '"' :: tl) =
      some (l, tl) := by
  induction l with
  | nil =>
    intro tl
    rw [List.map_nil, List.flatten_nil, List.nil_append, List.length_nil,
      Nat.zero_add, parseStringAux, if_pos rfl]
  | cons c l ih =>
    intro tl
    rw [List.map_cons, List.flatten_cons, List.append_assoc]
    have hl : (c :: l).length + 1 = (l.length + 1) + 1 := by
      rw [List.length_cons]
    rw [hl, parseStringAux_escChar, ih tl]
    rfl

theorem flatten_escape_length (l : List Char) :
    l.length ≤ ((l.map escJsonChar).flatten).length := by
  induction l with
  | nil => simp
  | cons c l ih =>
    rw [List.map_cons, List.flatten_cons, List.length_append, List.length_cons]
    have := escJsonChar_length c
    omega

theorem parseString_serStr (l : List Char) (tl : List Char) :
    parseStringAux ((l.map escJsonChar).flatten ++ '"' :: tl).length
      ((l.map escJsonChar).flatten ++ '"' :: tl) = some (l, tl) := by
  have h := parseStringAux_escape l tl
  have hlen := flatten_escape_length l
  have hm := parseStringAux_mono (l.length + 1)
    (((l.map escJsonChar).flatten ++ '"' :: tl).length - (l.length + 1)) _ _ h
  have harith : l.length + 1 +
      (((l.map escJsonChar).flatten ++ '"' :: tl).length - (l.length + 1)) =
      ((l.map escJsonChar).flatten ++ '"' :: tl).length := by
    rw [List.length_append, List.length_cons]
    omega
  rw [harith] at hm
  exact hm


mutual
/-- Well-formedness of the model values: fraction digits of float literals
are decimal digits, and a float literal has a fraction or an exponent
(otherwise it would be an integer literal). Everything Go's json.Marshal
emits satisfies this. -/
def wfJson : JsonVal → Bool
  | .null => true
  | .bool _ => true
  | .num _ => true
  | .fnum _ _ frac ex => frac.all isDigitChar && (!frac.isEmpty || ex.isSome)
  | .str _ => true
  | .arr xs => wfArr xs
  | .obj fs => wfObj fs

/-- Well-formedness of an array's elements. -/
def wfArr : JsonArr → Bool
  | .nil => true
  | .cons v tl => wfJson v && wfArr tl

/-- Well-formedness of an object's member values. -/
def wfObj : JsonObj → Bool
  | .nil => true
  | .cons _ v tl => wfJson v && wfObj tl
end

mutual
/-- Parser fuel needed by a JSON value: one per nesting step. -/
def jsize : JsonVal → Nat
  | .null => 1
  | .bool _ => 1
  | .num _ => 1
  | .fnum _ _ _ _ => 1
  | .str _ => 1
  | .arr xs => asize xs + 1
  | .obj fs => osize fs + 1

/-- Parser fuel needed by an array's element list. -/
def asize : JsonArr → Nat
  | .nil => 0
  | .cons v tl => jsize v + asize tl + 1

/-- Parser fuel needed by an object's member list. -/
def osize : JsonObj → Nat
  | .nil => 0
  | .cons _ v tl => jsize v + osize tl + 1
end

theorem skipWs_not_ws (c : Char) (cs : List Char) (h : isWsChar c = false) :
    skipWs (c :: cs) = c :: cs := by
  rw [skipWs, if_neg (by simp [h])]

theorem isWsChar_of_digit (c : Char) (h : isDigitChar c = true) :
    isWsChar c = false := by
  simp only [isDigitChar, Bool.and_eq_true, decide_eq_true_eq] at h
  rw [Bool.eq_false_iff]
  intro hw
  simp only [isWsChar, Bool.or_eq_true, decide_eq_true_eq] at hw
  rcases hw with ((h1 | h1) | h1) | h1 <;>
    (have htn := congrArg Char.toNat h1; simp at htn; omega)

theorem digit_toNat_bounds (c : Char) (h : isDigitChar c = true) :
    48 ≤ c.toNat ∧ c.toNat ≤ 57 := by
  simp only [isDigitChar, Bool.and_eq_true, decide_eq_true_eq] at h
  exact h

theorem ne_of_toNat {c d : Char} (h : c.toNat ≠ d.toNat) : c ≠ d :=
  fun he => h (he ▸ rfl)

/-- Head of any serialized JSON value: never whitespace, never a closing bracket. -/
theorem serJson_head (v : JsonVal) :
    ∃ c cs, serJson v = c :: cs ∧ isWsChar c = false ∧ c ≠ ']' ∧ c ≠ '}' := by
  cases v with
  | null => exact ⟨'n', _, rfl, by decide, by decide, by decide⟩
  | bool b =>
    cases b
    · exact ⟨'f', _, rfl, by decide, by decide, by decide⟩
    · exact ⟨'t', _, rfl, by decide, by decide, by decide⟩
  | num i =>
    by_cases hneg : i < 0
    · refine ⟨'-', natToDigits i.natAbs, ?_, by decide, by decide, by decide⟩
      rw [serJson, intToChars, if_pos hneg]
    · obtain ⟨d0, ds', hds⟩ := natToDigits_cons i.toNat
      have hd0 := natToDigits_all_digits i.toNat d0 (by rw [hds]; simp)
      have hb := digit_toNat_bounds d0 hd0
      refine ⟨d0, ds', ?_, isWsChar_of_digit d0 hd0, ne_of_toNat (by simp; omega),
        ne_of_toNat (by simp; omega)⟩
      rw [serJson, intToChars, if_neg hneg, hds]
  | fnum neg ip frac ex =>
    cases neg
    · obtain ⟨d0, ds', hds⟩ := natToDigits_cons ip
      have hd0 := natToDigits_all_digits ip d0 (by rw [hds]; simp)
      have hb := digit_toNat_bounds d0 hd0
      refine ⟨d0, ds' ++ ((if frac.isEmpty then [] else '.' :: frac) ++ serExp ex), ?_,
        isWsChar_of_digit d0 hd0, ne_of_toNat (by simp; omega),
        ne_of_toNat (by simp; omega)⟩
      rw [serJson, hds]
      simp only [if_false, Bool.false_eq_true, List.nil_append, List.cons_append,
        List.append_assoc]
    · refine ⟨'-', natToDigits ip ++ (if frac.isEmpty then [] else '.' :: frac) ++
        serExp ex, ?_, by decide, by decide, by decide⟩
      rw [serJson]
      simp only [if_true, List.cons_append, List.nil_append, List.append_assoc]
  | str s => exact ⟨'"', _, rfl, by decide, by decide, by decide⟩
  | arr xs => exact ⟨'[', _, rfl, by decide, by decide, by decide⟩
  | obj fs => exact ⟨'{', _, rfl, by decide, by decide, by decide⟩

theorem jsize_pos (v : JsonVal) : 1 ≤ jsize v := by
  cases v <;> rw [jsize] <;> omega

theorem rtMain : ∀ fuel : Nat,
    (∀ (v : JsonVal) (rest : List Char), wfJson v = true → jsize v ≤ fuel →
      delimHead rest → parseVal fuel (serJson v ++ rest) = some (v, rest)) ∧
    (∀ (v : JsonVal) (tl : JsonArr) (rest : List Char),
      wfArr (JsonArr.cons v tl) = true → asize (JsonArr.cons v tl) ≤ fuel →
      delimHead rest →
      parseArrElems fuel (serArr (JsonArr.cons v tl) ++ ']' :: rest)
        = some (JsonArr.cons v tl, rest)) ∧
    (∀ (k : String) (v : JsonVal) (tl : JsonObj) (rest : List Char),
      wfObj (JsonObj.cons k v tl) = true → osize (JsonObj.cons k v tl) ≤ fuel →
      delimHead rest →
      parseObjMems fuel (serObj (JsonObj.cons k v tl) ++ '}' :: rest)
        = some (JsonObj.cons k v tl, rest)) := by
  intro fuel
  induction fuel with
  | zero =>
    refine ⟨fun v rest hwf hsz hd => absurd hsz (by have := jsize_pos v; omega),
      fun v tl rest hwf hsz hd => absurd hsz (by rw [asize]; omega),
      fun k v tl rest hwf hsz hd => absurd hsz (by rw [osize]; omega)⟩
  | succ f ih =>
    obtain ⟨ihV, ihA, ihO⟩ := ih
    refine ⟨?_, ?_, ?_⟩
    · intro v rest hwf hsz hd
      cases v with
      | null =>
        rw [jsize] at hsz
        rw [serJson, List.cons_append, List.cons_append, List.cons_append,
          List.cons_append, List.nil_append, parseVal,
          skipWs_not_ws _ _ (by decide)]
        simp [expectChars]
      | bool b =>
        rw [jsize] at hsz
        cases b
        · rw [serJson, List.cons_append, List.cons_append, List.cons_append,
            List.cons_append, List.cons_append, List.nil_append, parseVal,
            skipWs_not_ws _ _ (by decide)]
          simp [expectChars]
        · rw [serJson, List.cons_append, List.cons_append, List.cons_append,
            List.cons_append, List.nil_append, parseVal,
            skipWs_not_ws _ _ (by decide)]
          simp [expectChars]
      | num i =>
        rw [jsize] at hsz
        by_cases hneg : i < 0
        · have hshape : serJson (JsonVal.num i) ++ rest
              = '-' :: (natToDigits i.natAbs ++ rest) := by
            rw [serJson, intToChars, if_pos hneg, List.cons_append]
          rw [hshape, parseVal, skipWs_not_ws _ _ (by decide)]
          simp only [if_neg (show ¬('-' : Char) = 'n' by decide),
            if_neg (show ¬('-' : Char) = 't' by decide),
            if_neg (show ¬('-' : Char) = 'f' by decide),
            if_neg (show ¬('-' : Char) = '"' by decide),
            if_neg (show ¬('-' : Char) = '[' by decide),
            if_neg (show ¬('-' : Char) = '{' by decide),
            if_pos (show ('-' : Char) = '-' ∨ isDigitChar '-' = true from Or.inl rfl),
            if_true]
          rw [show ('-' :: (natToDigits i.natAbs ++ rest) : List Char)
            = intToChars i ++ rest from by rw [intToChars, if_pos hneg, List.cons_append]]
          exact parseNumber_int i rest hd
        · obtain ⟨d0, ds', hds⟩ := natToDigits_cons i.toNat
          have hd0 := natToDigits_all_digits i.toNat d0 (by rw [hds]; simp)
          have hb := digit_toNat_bounds d0 hd0
          have hshape : serJson (JsonVal.num i) ++ rest = d0 :: (ds' ++ rest) := by
            rw [serJson, intToChars, if_neg hneg, hds, List.cons_append]
          rw [hshape, parseVal, skipWs_not_ws _ _ (isWsChar_of_digit d0 hd0)]
          simp only [if_neg (show ¬d0 = 'n' from ne_of_toNat (by simp; omega)),
            if_neg (show ¬d0 = 't' from ne_of_toNat (by simp; omega)),
            if_neg (show ¬d0 = 'f' from ne_of_toNat (by simp; omega)),
            if_neg (show ¬d0 = '"' from ne_of_toNat (by simp; omega)),
            if_neg (show ¬d0 = '[' from ne_of_toNat (by simp; omega)),
            if_neg (show ¬d0 = '{' from ne_of_toNat (by simp; omega)),
            if_pos (show d0 = '-' ∨ isDigitChar d0 = true from Or.inr hd0), if_true]
          rw [show (d0 :: (ds' ++ rest) : List Char) = intToChars i ++ rest from by
            rw [intToChars, if_neg hneg, hds, List.cons_append]]
          exact parseNumber_int i rest hd
      | fnum neg ip frac ex =>
        rw [jsize] at hsz
        rw [wfJson, Bool.and_eq_true] at hwf
        have hwE : frac ≠ [] ∨ ex ≠ none := by
          by_cases hf : frac = []
          · right
            subst hf
            have h2 := hwf.2
            simp only [List.isEmpty_nil, Bool.not_true, Bool.false_or] at h2
            cases ex with
            | none => simp at h2
            | some p => simp
          · left
            exact hf
        cases neg
        · obtain ⟨d0, ds', hds⟩ := natToDigits_cons ip
          have hd0 := natToDigits_all_digits ip d0 (by rw [hds]; simp)
          have hb := digit_toNat_bounds d0 hd0
          obtain ⟨T, hT⟩ : ∃ T, serJson (JsonVal.fnum false ip frac ex) ++ rest
              = d0 :: T := by
            rw [serJson, hds]
            simp only [if_false, Bool.false_eq_true, List.nil_append, List.cons_append,
              List.append_assoc]
            exact ⟨_, rfl⟩
          rw [hT, parseVal, skipWs_not_ws _ _ (isWsChar_of_digit d0 hd0)]
          simp only [if_neg (show ¬d0 = 'n' from ne_of_toNat (by simp; omega)),
            if_neg (show ¬d0 = 't' from ne_of_toNat (by simp; omega)),
            if_neg (show ¬d0 = 'f' from ne_of_toNat (by simp; omega)),
            if_neg (show ¬d0 = '"' from ne_of_toNat (by simp; omega)),
            if_neg (show ¬d0 = '[' from ne_of_toNat (by simp; omega)),
            if_neg (show ¬d0 = '{' from ne_of_toNat (by simp; omega)),
            if_pos (show d0 = '-' ∨ isDigitChar d0 = true from Or.inr hd0), if_true]
          rw [← hT, serJson]
          exact parseNumber_fnum false ip frac ex hwf.1 hwE rest hd
        · obtain ⟨T, hT⟩ : ∃ T, serJson (JsonVal.fnum true ip frac ex) ++ rest
              = '-' :: T := by
            rw [serJson]
            simp only [if_true, List.cons_append, List.nil_append, List.append_assoc]
            exact ⟨_, rfl⟩
          rw [hT, parseVal, skipWs_not_ws _ _ (by decide)]
          simp only [if_neg (show ¬('-' : Char) = 'n' by decide),
            if_neg (show ¬('-' : Char) = 't' by decide),
            if_neg (show ¬('-' : Char) = 'f' by decide),
            if_neg (show ¬('-' : Char) = '"' by decide),
            if_neg (show ¬('-' : Char) = '[' by decide),
            if_neg (show ¬('-' : Char) = '{' by decide),
            if_pos (show ('-' : Char) = '-' ∨ isDigitChar '-' = true from Or.inl rfl),
            if_true]
          rw [← hT, serJson]
          exact parseNumber_fnum true ip frac ex hwf.1 hwE rest hd
      | str s =>
        rw [jsize] at hsz
        cases s with
        | mk data =>
          show parseVal (f + 1) (serStr ⟨data⟩ ++ rest) = some (JsonVal.str ⟨data⟩, rest)
          rw [serStr]
          show parseVal (f + 1)
            ('"' :: ((List.map escJsonChar data).flatten ++ ['"']) ++ rest) = _
          rw [List.cons_append, List.append_assoc, List.singleton_append, parseVal,
            skipWs_not_ws _ _ (by decide)]
          simp only [if_neg (show ¬('"' : Char) = 'n' by decide),
            if_neg (show ¬('"' : Char) = 't' by decide),
            if_neg (show ¬('"' : Char) = 'f' by decide), if_pos rfl, if_true]
          rw [parseString_serStr data rest]
          rfl
      | arr xs =>
        cases xs with
        | nil =>
          rw [jsize, asize] at hsz
          show parseVal (f + 1) ('[' :: ']' :: rest) = some (JsonVal.arr JsonArr.nil, rest)
          rw [parseVal, skipWs_not_ws _ _ (by decide)]
          simp [skipWs_not_ws _ _ (by decide : isWsChar ']' = false)]
        | cons v tl =>
          rw [serJson, List.cons_append, List.cons_append, List.append_assoc,
            List.singleton_append, parseVal, skipWs_not_ws _ _ (by decide)]
          simp only [if_neg (show ¬('[' : Char) = 'n' by decide),
            if_neg (show ¬('[' : Char) = 't' by decide),
            if_neg (show ¬('[' : Char) = 'f' by decide),
            if_neg (show ¬('[' : Char) = '"' by decide),
            if_pos (show ('[' : Char) = '[' from rfl), if_true]
          rw [serArr, List.append_assoc]
          obtain ⟨c0, cs0, hser, hws, hne, _⟩ := serJson_head v
          have hsws : skipWs (serJson v ++ (serArrRest tl ++ ']' :: rest))
              = serJson v ++ (serArrRest tl ++ ']' :: rest) := by
            rw [hser, List.cons_append]
            exact skipWs_not_ws _ _ hws
          rw [hsws]
          have hnob : ¬((serJson v ++ (serArrRest tl ++ ']' :: rest)).head?
              = some ']') := by
            rw [hser, List.cons_append, List.head?_cons]
            intro h
            exact hne ((Option.some.injEq _ _).mp h)
          rw [if_neg hnob]
          rw [show serJson v ++ (serArrRest tl ++ ']' :: rest)
              = serArr (JsonArr.cons v tl) ++ ']' :: rest from by
            rw [serArr, List.append_assoc]]
          rw [ihA v tl rest (by rw [wfJson] at hwf; exact hwf)
            (by rw [jsize] at hsz; omega) hd]
          rfl
      | obj fs =>
        cases fs with
        | nil =>
          rw [jsize, osize] at hsz
          show parseVal (f + 1) ('{' :: '}' :: rest) = some (JsonVal.obj JsonObj.nil, rest)
          rw [parseVal, skipWs_not_ws _ _ (by decide)]
          simp [skipWs_not_ws _ _ (by decide : isWsChar '}' = false)]
        | cons k v tl =>
          rw [serJson, List.cons_append, List.cons_append, List.append_assoc,
            List.singleton_append, parseVal, skipWs_not_ws _ _ (by decide)]
          simp only [if_neg (show ¬('{' : Char) = 'n' by decide),
            if_neg (show ¬('{' : Char) = 't' by decide),
            if_neg (show ¬('{' : Char) = 'f' by decide),
            if_neg (show ¬('{' : Char) = '"' by decide),
            if_neg (show ¬('{' : Char) = '[' by decide),
            if_pos (show ('{' : Char) = '{' from rfl), if_true]
          obtain ⟨t0, ht0⟩ : ∃ t0, serObj (JsonObj.cons k v tl) = '"' :: t0 := by
            rw [serObj, serStr, List.cons_append, List.cons_append]
            exact ⟨_, rfl⟩
          have hsws : skipWs (serObj (JsonObj.cons k v tl) ++ '}' :: rest)
              = serObj (JsonObj.cons k v tl) ++ '}' :: rest := by
            rw [ht0, List.cons_append]
            exact skipWs_not_ws _ _ (by decide)
          rw [hsws]
          have hnob : ¬((serObj (JsonObj.cons k v tl) ++ '}' :: rest).head?
              = some '}') := by
            rw [ht0, List.cons_append, List.head?_cons]
            intro h
            exact absurd ((Option.some.injEq _ _).mp h) (by decide)
          rw [if_neg hnob]
          rw [ihO k v tl rest (by rw [wfJson] at hwf; exact hwf)
            (by rw [jsize] at hsz; omega) hd]
          rfl
    · intro v tl rest hwf hsz hd
      rw [asize] at hsz
      rw [wfArr, Bool.and_eq_true] at hwf
      rw [serArr, List.append_assoc, parseArrElems]
      have hdel : delimHead (serArrRest tl ++ ']' :: rest) := by
        cases tl with
        | nil => rw [serArrRest, List.nil_append]; exact Or.inr (Or.inr rfl)
        | cons v2 tl2 => rw [serArrRest, List.cons_append]; exact Or.inl rfl
      rw [ihV v _ hwf.1 (by omega) hdel]
      cases tl with
      | nil =>
        rw [serArrRest, List.nil_append]
        simp only [skipWs_not_ws _ _ (by decide : isWsChar ']' = false)]
        simp
      | cons v2 tl2 =>
        rw [serArrRest, List.cons_append]
        simp only [skipWs_not_ws _ _ (by decide : isWsChar ',' = false)]
        simp only [List.head?_cons, Option.some.injEq, if_pos rfl, List.tail_cons,
          if_true, if_neg (show ¬(',' : Char) = ']' by decide)]
        rw [show serJson v2 ++ serArrRest tl2 = serArr (JsonArr.cons v2 tl2) from rfl]
        rw [ihA v2 tl2 rest hwf.2 (by rw [asize] at hsz ⊢; omega) hd]
        rfl
    · intro k v tl rest hwf hsz hd
      rw [osize] at hsz
      rw [wfObj, Bool.and_eq_true] at hwf
      cases k with
      | mk kd =>
        rw [parseObjMems]
        have hshape : serObj (JsonObj.cons ⟨kd⟩ v tl) ++ '}' :: rest
            = '"' :: ((kd.map escJsonChar).flatten ++
              ('"' :: ':' :: (serJson v ++ (serObjRest tl ++ '}' :: rest)))) := by
          rw [serObj, serStr]
          simp only [List.cons_append, List.append_assoc, List.nil_append]
        rw [hshape, skipWs_not_ws _ _ (by decide)]
        simp only [List.head?_cons, Option.some.injEq, if_pos rfl, List.tail_cons,
          if_true]
        rw [parseString_serStr kd (':' :: (serJson v ++ (serObjRest tl ++ '}' :: rest)))]
        simp only [skipWs_not_ws _ _ (by decide : isWsChar ':' = false),
          List.head?_cons, Option.some.injEq, if_pos rfl, List.tail_cons, if_true]
        have hdel : delimHead (serObjRest tl ++ '}' :: rest) := by
          cases tl with
          | nil => rw [serObjRest, List.nil_append]; exact Or.inr (Or.inl rfl)
          | cons k2 v2 tl2 => rw [serObjRest, List.cons_append]; exact Or.inl rfl
        rw [ihV v _ hwf.1 (by omega) hdel]
        cases tl with
        | nil =>
          rw [serObjRest, List.nil_append]
          simp only [skipWs_not_ws _ _ (by decide : isWsChar '}' = false)]
          simp
        | cons k2 v2 tl2 =>
          rw [serObjRest, List.cons_append]
          simp only [skipWs_not_ws _ _ (by decide : isWsChar ',' = false)]
          simp only [List.head?_cons, Option.some.injEq, if_pos rfl, List.tail_cons,
            if_true, if_neg (show ¬(',' : Char) = '}' by decide)]
          rw [show serStr k2 ++ ':' :: (serJson v2 ++ serObjRest tl2)
            = serObj (JsonObj.cons k2 v2 tl2) from rfl]
          rw [ihO k2 v2 tl2 rest hwf.2 (by rw [osize] at hsz ⊢; omega) hd]
          rfl

theorem rtVal (v : JsonVal) (hwf : wfJson v = true) (fuel : Nat) (rest : List Char)
    (hsz : jsize v ≤ fuel) (hd : delimHead rest) :
    parseVal fuel (serJson v ++ rest) = some (v, rest) :=
  (rtMain fuel).1 v rest hwf hsz hd

mutual
theorem jsizeLe : ∀ v : JsonVal, jsize v ≤ (serJson v).length
  | .null => by rw [jsize, serJson]; simp
  | .bool true => by rw [jsize, serJson]; simp
  | .bool false => by rw [jsize, serJson]; simp
  | .num i => by
    rw [jsize, serJson, intToChars]
    split
    · simp
    · obtain ⟨d0, ds', hds⟩ := natToDigits_cons i.toNat
      rw [hds]
      simp
  | .fnum neg ip frac ex => by
    rw [jsize, serJson]
    obtain ⟨d0, ds', hds⟩ := natToDigits_cons ip
    rw [hds]
    simp only [List.length_append, List.length_cons]
    omega
  | .str s => by
    rw [jsize, serJson, serStr]
    simp
  | .arr xs => by
    rw [jsize, serJson]
    have := asizeLe xs
    simp only [List.cons_append, List.length_cons, List.length_append,
      List.length_singleton]
    omega
  | .obj fs => by
    rw [jsize, serJson]
    have := osizeLe fs
    simp only [List.cons_append, List.length_cons, List.length_append,
      List.length_singleton]
    omega

theorem asizeLe : ∀ xs : JsonArr, asize xs ≤ (serArr xs).length + 1
  | .nil => by rw [asize, serArr]; simp
  | .cons v tl => by
    rw [asize, serArr]
    have h1 := jsizeLe v
    have h2 := asizeRestLe tl
    simp only [List.length_append]
    omega

theorem asizeRestLe : ∀ xs : JsonArr, asize xs ≤ (serArrRest xs).length
  | .nil => by rw [asize, serArrRest]; simp
  | .cons v tl => by
    rw [asize, serArrRest]
    have h1 := jsizeLe v
    have h2 := asizeRestLe tl
    simp only [List.length_cons, List.length_append]
    omega

theorem osizeLe : ∀ fs : JsonObj, osize fs ≤ (serObj fs).length + 1
  | .nil => by rw [osize, serObj]; simp
  | .cons k v tl => by
    rw [osize, serObj]
    have h1 := jsizeLe v
    have h2 := osizeRestLe tl
    simp only [List.length_append, List.length_cons]
    omega

theorem osizeRestLe : ∀ fs : JsonObj, osize fs ≤ (serObjRest fs).length
  | .nil => by rw [osize, serObjRest]; simp
  | .cons k v tl => by
    rw [osize, serObjRest]
    have h1 := jsizeLe v
    have h2 := osizeRestLe tl
    simp only [List.length_cons, List.length_append]
    omega
end

/-- Round trip of JSON serialization: parsing a serialized well-formed value
returns exactly that value. -/
theorem jsonParse_serJson (v : JsonVal) (hwf : wfJson v = true) :
    jsonParse ⟨serJson v⟩ = some v := by
  have h := rtVal v hwf ((serJson v).length + 1) [] (by have := jsizeLe v; omega)
    trivial
  rw [List.append_nil] at h
  show (match parseVal ((serJson v).length + 1) (serJson v) with
    | some (v, rem) => if (skipWs rem).isEmpty then some v else none
    | none => none) = some v
  rw [h]
  rfl


/-! ## The Go value model and BuildQueryString (client.go lines 97-181) -/

/-- Non-pointer Go values that can appear in a query-parameter map, as the
reflection switch in `BuildQueryString` classifies them. `bstructured`
carries the JSON value whose serialization `json.Marshal` produces for a
struct/map/slice/array; `bbad` models a structured value on which
`json.Marshal` fails (for example a slice containing a NaN float), carrying
the fmt `%v` rendering used by the fallback branch; `bfloat` carries the
fmt `%g` rendering of a float value (floating-point formatting itself is
not modelled); `bother` covers the remaining kinds that reach the inner
default case (complex, chan, func, ...), carrying their `%v` rendering. -/
inductive GoBase where
  | bstr (s : String)
  | bint (i : Int)
  | buint (n : Nat)
  | bfloat (render : String)
  | bbool (b : Bool)
  | bstructured (j : JsonVal)
  | bbad (render : String)
  | bother (render : String)

/-- A Go interface value in a query-parameter map: nil, a non-pointer
value, a nil pointer, or a pointer to a non-pointer value (the code
dereferences exactly one level, lines 125-142). -/
inductive GoValue where
  | vnil
  | vbase (b : GoBase)
  | vptrNil
  | vptr (b : GoBase)

/-- String rendering of a base value before query escaping, as the switch
in `BuildQueryString` produces it: strings pass through, integers render in
decimal (`%d`), floats by their `%g` rendering, booleans via
`strconv.FormatBool`, structured values via `json.Marshal` (or their `%v`
rendering when marshaling fails). -/
def renderBase : GoBase → String
  | .bstr s => s
  | .bint i => ⟨intToChars i⟩
  | .buint n => ⟨natToDigits n⟩
  | .bfloat r => r
  | .bbool b => if b then "true" else "false"
  | .bstructured j => ⟨serJson j⟩
  | .bbad r => r
  | .bother r => r

/-- The encoded `key=value` part one entry contributes to
`BuildQueryString`, `none` when the entry is skipped (nil value, line 105;
nil pointer, line 127). Every branch produces `url.QueryEscape` of the key
and of the rendered value (lines 109, 120-158, 162). -/
def encodeEntry : String × GoValue → Option String
  | (_, .vnil) => none
  | (_, .vptrNil) => none
  | (k, .vbase b) => some (queryEscape k ++ "=" ++ queryEscape (renderBase b))
  | (k, .vptr b) => some (queryEscape k ++ "=" ++ queryEscape (renderBase b))

/-- Entries that contribute a part: everything except a nil value and a nil
pointer. -/
def isPresent : GoValue → Bool
  | .vnil => false
  | .vptrNil => false
  | .vbase _ => true
  | .vptr _ => true

/-- Key extraction used by the sort: `strings.Split(part, "=")[0]` (line
171), the characters before the first `=`. -/
def partKey (s : String) : String := ⟨s.data.takeWhile (fun c => c != '=')⟩

/-- Lexicographic strict order on character lists, by code point. Go's
string `>` compares UTF-8 bytes; byte-wise and code-point-wise
lexicographic order agree, because UTF-8 preserves code-point order. -/
def charListLt : List Char → List Char → Bool
  | [], [] => false
  | [], _ :: _ => true
  | _ :: _, [] => false
  | a :: as, b :: bs =>
    if a.toNat < b.toNat then true
    else if b.toNat < a.toNat then false
    else charListLt as bs

/-- Model of Go's `<` on strings. -/
def goStrLt (a b : String) : Bool := charListLt a.data b.data

/-- Inner loop of the sort in `BuildQueryString` (lines 170-176; fixed i, j
moving right): `cur` is `parts[i]`; when `key(parts[i]) > key(parts[j])`
the swap leaves the old `parts[i]` at position j and `parts[j]` becomes the
new current. `acc` holds positions i+1 .. j-1, reversed. -/
def sortInner (cur : String) (acc : List String) : List String → String × List String
  | [] => (cur, acc.reverse)
  | x :: xs =>
    if goStrLt (partKey x) (partKey cur) then sortInner x (cur :: acc) xs
    else sortInner cur (x :: acc) xs

/-- Outer loop of the sort (line 169): the minimum settles at position i
and the loop recurses on the remaining positions; the fuel is the list
length (i runs over 0 .. len-1). -/
def sortOuter : Nat → List String → List String
  | 0, l => l
  | _ + 1, [] => []
  | fuel + 1, x :: xs =>
    (sortInner x [] xs).1 :: sortOuter fuel (sortInner x [] xs).2

/-- The sort at the end of `BuildQueryString` (lines 167-178), applied only
when there are at least two parts. -/
def sortParts (parts : List String) : List String :=
  if parts.length > 1 then sortOuter parts.length parts else parts

/-- Model of `strings.Join(parts, "&")` (line 180). -/
def joinAmp : List String → String
  | [] => ""
  | [x] => x
  | x :: y :: tl => x ++ "&" ++ joinAmp (y :: tl)

/-- Model of `BuildQueryString` (client.go lines 97-181). The Go map is
modelled as a list of key/value entries in iteration order; Go map
iteration order is arbitrary, which is why deterministic claims quantify
over permutations of the entry list. -/
def BuildQueryString (params : List (String × GoValue)) : String :=
  if params.length = 0 then ""
  else joinAmp (sortParts (params.filterMap encodeEntry))

/-- One string occurs inside another, contiguously. -/
def strOccurs (sub big : String) : Prop :=
  ∃ s t, big.data = s ++ sub.data ++ t

theorem charEqOfToNat (a b : Char) (h : a.toNat = b.toNat) : a = b := by
  rw [← Char.ofNat_toNat a, ← Char.ofNat_toNat b, h]

theorem charListLt_asymm : ∀ as bs, charListLt as bs = true →
    charListLt bs as = false := by
  intro as
  induction as with
  | nil =>
    intro bs h
    cases bs with
    | nil => simp [charListLt] at h
    | cons b bs => rfl
  | cons a as ih =>
    intro bs h
    cases bs with
    | nil => simp [charListLt] at h
    | cons b bs =>
      rw [charListLt] at h ⊢
      by_cases h1 : a.toNat < b.toNat
      · rw [if_neg (by omega), if_pos h1]
      · by_cases h2 : b.toNat < a.toNat
        · rw [if_neg h1, if_pos h2] at h
          exact Bool.noConfusion h
        · rw [if_neg h1, if_neg h2] at h
          rw [if_neg h2, if_neg h1]
          exact ih bs h

theorem charListLt_trans : ∀ as bs cs, charListLt as bs = true →
    charListLt bs cs = true → charListLt as cs = true := by
  intro as
  induction as with
  | nil =>
    intro bs cs h1 h2
    cases bs with
    | nil => simp [charListLt] at h1
    | cons b bs =>
      cases cs with
      | nil => simp [charListLt] at h2
      | cons c cs => rfl
  | cons a as ih =>
    intro bs cs h1 h2
    cases bs with
    | nil => simp [charListLt] at h1
    | cons b bs =>
      cases cs with
      | nil => simp [charListLt] at h2
      | cons c cs =>
        rw [charListLt] at h1 h2 ⊢
        by_cases hab : a.toNat < b.toNat
        · by_cases hbc : b.toNat < c.toNat
          · rw [if_pos (by omega)]
          · rw [if_neg hbc] at h2
            by_cases hcb : c.toNat < b.toNat
            · rw [if_pos hcb] at h2
              exact Bool.noConfusion h2
            · rw [if_pos (by omega)]
        · rw [if_neg hab] at h1
          by_cases hba : b.toNat < a.toNat
          · rw [if_pos hba] at h1
            exact Bool.noConfusion h1
          · rw [if_neg hba] at h1
            by_cases hbc : b.toNat < c.toNat
            · rw [if_pos (by omega)]
            · rw [if_neg hbc] at h2
              by_cases hcb : c.toNat < b.toNat
              · rw [if_pos hcb] at h2
                exact Bool.noConfusion h2
              · rw [if_neg hcb] at h2
                rw [if_neg (by omega), if_neg (by omega)]
                exact ih bs cs h1 h2

theorem charListLt_total : ∀ as bs, charListLt as bs = false →
    charListLt bs as = false → as = bs := by
  intro as
  induction as with
  | nil =>
    intro bs h1 h2
    cases bs with
    | nil => rfl
    | cons b bs => simp [charListLt] at h1
  | cons a as ih =>
    intro bs h1 h2
    cases bs with
    | nil => simp [charListLt] at h2
    | cons b bs =>
      rw [charListLt] at h1 h2
      by_cases hab : a.toNat < b.toNat
      · rw [if_pos hab] at h1
        exact Bool.noConfusion h1
      · by_cases hba : b.toNat < a.toNat
        · rw [if_pos hba] at h2
          exact Bool.noConfusion h2
        · rw [if_neg hab, if_neg hba] at h1
          rw [if_neg hba, if_neg hab] at h2
          rw [charEqOfToNat a b (by omega), ih bs h1 h2]

theorem goStrLt_asymm (a b : String) (h : goStrLt a b = true) :
    goStrLt b a = false :=
  charListLt_asymm _ _ h

theorem goStrLt_trans (a b c : String) (h1 : goStrLt a b = true)
    (h2 : goStrLt b c = true) : goStrLt a c = true :=
  charListLt_trans _ _ _ h1 h2

theorem goStrLt_total (a b : String) (h1 : goStrLt a b = false)
    (h2 : goStrLt b a = false) : a = b := by
  have h := charListLt_total _ _ h1 h2
  cases a
  cases b
  exact congrArg String.mk h

theorem sortInner_length : ∀ (rest : List String) (cur : String) (acc : List String),
    (sortInner cur acc rest).2.length = acc.length + rest.length := by
  intro rest
  induction rest with
  | nil => intro cur acc; simp [sortInner]
  | cons x xs ih =>
    intro cur acc
    rw [sortInner]
    split
    · rw [ih]
      simp only [List.length_cons]
      omega
    · rw [ih]
      simp only [List.length_cons]
      omega

theorem sortInner_perm : ∀ (rest : List String) (cur : String) (acc : List String),
    List.Perm ((sortInner cur acc rest).1 :: (sortInner cur acc rest).2)
      (cur :: (acc.reverse ++ rest)) := by
  intro rest
  induction rest with
  | nil =>
    intro cur acc
    simp [sortInner]
  | cons x xs ih =>
    intro cur acc
    rw [sortInner]
    split
    · refine (ih x (cur :: acc)).trans ?_
      simp only [List.reverse_cons, List.append_assoc, List.singleton_append]
      refine (List.Perm.cons x List.perm_middle).trans ?_
      refine (List.Perm.swap cur x _).trans ?_
      exact List.Perm.cons cur List.perm_middle.symm
    · refine (ih cur (x :: acc)).trans ?_
      simp only [List.reverse_cons, List.append_assoc, List.singleton_append]
      exact List.Perm.refl _

theorem sortInner_min : ∀ (rest : List String) (cur : String) (acc : List String),
    (∀ a ∈ acc, goStrLt (partKey a) (partKey cur) = false) →
    ∀ a ∈ (sortInner cur acc rest).2,
      goStrLt (partKey a) (partKey (sortInner cur acc rest).1) = false := by
  intro rest
  induction rest with
  | nil =>
    intro cur acc hacc a ha
    simp only [sortInner, List.mem_reverse] at ha ⊢
    exact hacc a ha
  | cons x xs ih =>
    intro cur acc hacc a ha
    rw [sortInner] at ha ⊢
    by_cases h : goStrLt (partKey x) (partKey cur) = true
    · rw [if_pos h] at ha ⊢
      refine ih x (cur :: acc) ?_ a ha
      intro b hb
      rcases List.mem_cons.mp hb with hb | hb
      · rw [hb]
        exact goStrLt_asymm _ _ h
      · cases hbx : goStrLt (partKey b) (partKey x) with
        | false => rfl
        | true =>
          have hcontra := goStrLt_trans _ _ _ hbx h
          rw [hacc b hb] at hcontra
          exact Bool.noConfusion hcontra
    · rw [if_neg h] at ha ⊢
      refine ih cur (x :: acc) ?_ a ha
      intro b hb
      rcases List.mem_cons.mp hb with hb | hb
      · rw [hb]
        cases hgl : goStrLt (partKey x) (partKey cur) with
        | false => rfl
        | true => exact absurd hgl h
      · exact hacc b hb

theorem sortOuter_perm : ∀ (fuel : Nat) (l : List String), l.length ≤ fuel →
    List.Perm (sortOuter fuel l) l := by
  intro fuel
  induction fuel with
  | zero =>
    intro l hl
    rw [List.length_eq_zero.mp (Nat.le_zero.mp hl)]
    exact List.Perm.refl _
  | succ fuel ih =>
    intro l hl
    cases l with
    | nil => exact List.Perm.refl _
    | cons x xs =>
      rw [sortOuter]
      have hlen : (sortInner x [] xs).2.length ≤ fuel := by
        rw [sortInner_length]
        simp only [List.length_nil]
        simp only [List.length_cons] at hl
        omega
      refine (List.Perm.cons _ (ih _ hlen)).trans ?_
      have h := sortInner_perm xs x []
      simpa using h

theorem sortOuter_sorted : ∀ (fuel : Nat) (l : List String), l.length ≤ fuel →
    (sortOuter fuel l).Pairwise
      (fun a b => goStrLt (partKey b) (partKey a) = false) := by
  intro fuel
  induction fuel with
  | zero =>
    intro l hl
    rw [List.length_eq_zero.mp (Nat.le_zero.mp hl)]
    exact List.Pairwise.nil
  | succ fuel ih =>
    intro l hl
    cases l with
    | nil => exact List.Pairwise.nil
    | cons x xs =>
      rw [sortOuter]
      have hlen : (sortInner x [] xs).2.length ≤ fuel := by
        rw [sortInner_length]
        simp only [List.length_nil]
        simp only [List.length_cons] at hl
        omega
      refine List.Pairwise.cons ?_ (ih _ hlen)
      intro b hb
      have hb2 : b ∈ (sortInner x [] xs).2 :=
        (sortOuter_perm fuel _ hlen).mem_iff.mp hb
      exact sortInner_min xs x [] (fun a ha => absurd ha (List.not_mem_nil a)) b hb2

theorem sortParts_perm (parts : List String) : List.Perm (sortParts parts) parts := by
  rw [sortParts]
  split
  · exact sortOuter_perm _ _ le_rfl
  · exact List.Perm.refl _

theorem sortParts_sorted (parts : List String) :
    (sortParts parts).Pairwise
      (fun a b => goStrLt (partKey b) (partKey a) = false) := by
  rw [sortParts]
  split
  · exact sortOuter_sorted _ _ le_rfl
  · rename_i h
    cases parts with
    | nil => exact List.Pairwise.nil
    | cons x tl =>
      cases tl with
      | nil => exact List.pairwise_singleton _ _
      | cons y tl2 =>
        exact absurd (by simp only [List.length_cons]; omega) h

theorem sorted_perm_unique (l1 l2 : List String) (h : List.Perm l1 l2)
    (hk : l1.Pairwise (fun a b => partKey a ≠ partKey b))
    (s1 : l1.Pairwise (fun a b => goStrLt (partKey b) (partKey a) = false))
    (s2 : l2.Pairwise (fun a b => goStrLt (partKey b) (partKey a) = false)) :
    l1 = l2 := by
  have hk2 : l2.Pairwise (fun a b => partKey a ≠ partKey b) :=
    (h.pairwise_iff fun hab => Ne.symm hab).mp hk
  have hstrict : ∀ (a b : String), goStrLt (partKey b) (partKey a) = false →
      partKey a ≠ partKey b → goStrLt (partKey a) (partKey b) = true := by
    intro a b hle hne
    cases hx : goStrLt (partKey a) (partKey b) with
    | true => rfl
    | false => exact absurd (goStrLt_total _ _ hx hle) hne
  have hp1 : l1.Pairwise (fun a b : String => goStrLt (partKey a) (partKey b) = true) :=
    (s1.and hk).imp fun hab => hstrict _ _ hab.1 hab.2
  have hp2 : l2.Pairwise (fun a b : String => goStrLt (partKey a) (partKey b) = true) :=
    (s2.and hk2).imp fun hab => hstrict _ _ hab.1 hab.2
  haveI : IsAntisymm String (fun a b => goStrLt (partKey a) (partKey b) = true) :=
    ⟨fun a b h1 h2 => by
      rw [goStrLt_asymm _ _ h1] at h2
      exact Bool.noConfusion h2⟩
  exact List.eq_of_perm_of_sorted h hp1 hp2

theorem partKey_encoded (k v : String) :
    partKey (queryEscape k ++ "=" ++ v) = queryEscape k := by
  rw [partKey]
  have hdata : (queryEscape k ++ "=" ++ v).data =
      (queryEscape k).data ++ ('=' :: v.data) := by
    rw [String.data_append, String.data_append, List.append_assoc]
    rfl
  rw [hdata]
  have h1 : ∀ c ∈ (queryEscape k).data, (c != '=') = true := by
    intro c hc
    have h := (mem_queryEscape_ne k c hc).1
    simpa [bne_iff_ne] using h
  have h2 : ∀ c, (('=' :: v.data).head? = some c) → (c != '=') = false := by
    intro c hc
    rw [List.head?_cons, Option.some.injEq] at hc
    subst hc
    decide
  rw [(takeWhile_all_append _ _ _ h1 h2).1]

theorem partKey_encodeEntry (e : String × GoValue) (p : String)
    (h : encodeEntry e = some p) : partKey p = queryEscape e.1 := by
  obtain ⟨k, v⟩ := e
  cases v with
  | vnil => exact absurd h (by simp [encodeEntry])
  | vptrNil => exact absurd h (by simp [encodeEntry])
  | vbase b =>
    rw [encodeEntry] at h
    have h2 := Option.some.inj h
    rw [← h2]
    exact partKey_encoded k _
  | vptr b =>
    rw [encodeEntry] at h
    have h2 := Option.some.inj h
    rw [← h2]
    exact partKey_encoded k _

theorem encodeEntry_isSome (e : String × GoValue) :
    (encodeEntry e).isSome = isPresent e.2 := by
  obtain ⟨k, v⟩ := e
  cases v <;> rfl

theorem filterMap_filter_present (params : List (String × GoValue)) :
    (params.filter fun e => isPresent e.2).filterMap encodeEntry =
      params.filterMap encodeEntry := by
  induction params with
  | nil => rfl
  | cons e tl ih =>
    obtain ⟨k, v⟩ := e
    rw [List.filter_cons]
    cases v with
    | vnil =>
      have hc : ¬ isPresent (k, GoValue.vnil).2 = true := by simp [isPresent]
      rw [if_neg hc]
      simp only [List.filterMap_cons, encodeEntry]
      exact ih
    | vptrNil =>
      have hc : ¬ isPresent (k, GoValue.vptrNil).2 = true := by simp [isPresent]
      rw [if_neg hc]
      simp only [List.filterMap_cons, encodeEntry]
      exact ih
    | vbase b =>
      have hc : isPresent (k, GoValue.vbase b).2 = true := rfl
      rw [if_pos hc]
      simp only [List.filterMap_cons, encodeEntry]
      rw [ih]
    | vptr b =>
      have hc : isPresent (k, GoValue.vptr b).2 = true := rfl
      rw [if_pos hc]
      simp only [List.filterMap_cons, encodeEntry]
      rw [ih]

theorem filterMap_parts_keys (params : List (String × GoValue))
    (h : params.Pairwise (fun a b => a.1 ≠ b.1)) :
    (params.filterMap encodeEntry).Pairwise
      (fun a b => partKey a ≠ partKey b) := by
  induction params with
  | nil => exact List.Pairwise.nil
  | cons e tl ih =>
    obtain ⟨hhead, htail⟩ := List.pairwise_cons.mp h
    rw [List.filterMap_cons]
    cases henc : encodeEntry e with
    | none => exact ih htail
    | some p =>
      refine List.Pairwise.cons ?_ (ih htail)
      intro q hq
      rw [List.mem_filterMap] at hq
      obtain ⟨e2, he2, henc2⟩ := hq
      rw [partKey_encodeEntry e p henc, partKey_encodeEntry e2 q henc2]
      intro heq
      exact hhead e2 he2 (queryEscape_injective heq)

theorem mem_joinAmp_occurs : ∀ (l : List String) (p : String), p ∈ l →
    strOccurs p (joinAmp l) := by
  intro l
  induction l with
  | nil => intro p hp; exact absurd hp (List.not_mem_nil _)
  | cons x tl ih =>
    intro p hp
    cases tl with
    | nil =>
      rw [List.mem_singleton] at hp
      subst hp
      exact ⟨[], [], by simp [joinAmp]⟩
    | cons y tl2 =>
      rcases List.mem_cons.mp hp with hp | hp
      · subst hp
        refine ⟨[], '&' :: (joinAmp (y :: tl2)).data, ?_⟩
        rw [joinAmp]
        simp [String.data_append, List.append_assoc]
      · obtain ⟨s, t, hst⟩ := ih p hp
        refine ⟨x.data ++ '&' :: s, t, ?_⟩
        rw [joinAmp]
        simp [String.data_append, hst, List.append_assoc]

theorem sortParts_eq_of_perm (l1 l2 : List String) (h : List.Perm l1 l2)
    (hk : l1.Pairwise (fun a b => partKey a ≠ partKey b)) :
    sortParts l1 = sortParts l2 := by
  have hperm12 : List.Perm (sortParts l1) (sortParts l2) :=
    (sortParts_perm l1).trans (h.trans (sortParts_perm l2).symm)
  refine sorted_perm_unique _ _ hperm12 ?_ (sortParts_sorted l1) (sortParts_sorted l2)
  exact ((sortParts_perm l1).pairwise_iff fun hab => Ne.symm hab).mpr hk

/-! ## Claims C1-C4: BuildQueryString -/

/-- C1: an entry of the parameter mapping whose value is absent (a nil
value or a nil pointer) contributes neither key nor value to the query
string — `BuildQueryString` returns the same string as on the mapping with
the absent entries removed — and every present entry's encoded `key=value`
part occurs in the returned string. -/
theorem C1 (params : List (String × GoValue)) :
    BuildQueryString params =
      BuildQueryString (params.filter fun e => isPresent e.2) ∧
    ∀ e ∈ params, isPresent e.2 = true →
      ∃ p, encodeEntry e = some p ∧ strOccurs p (BuildQueryString params) := by
  constructor
  · rw [BuildQueryString, BuildQueryString, filterMap_filter_present]
    by_cases h1 : params.length = 0
    · rw [List.length_eq_zero.mp h1]
      rfl
    · rw [if_neg h1]
      by_cases h2 : (params.filter fun e => isPresent e.2).length = 0
      · rw [if_pos h2]
        have hfe : params.filterMap encodeEntry = [] := by
          rw [← filterMap_filter_present, List.length_eq_zero.mp h2]
          rfl
        rw [hfe]
        rfl
      · rw [if_neg h2]
  · intro e he hp
    have hsome : (encodeEntry e).isSome = true := by
      rw [encodeEntry_isSome]
      exact hp
    obtain ⟨p, hpeq⟩ := Option.isSome_iff_exists.mp hsome
    refine ⟨p, hpeq, ?_⟩
    have hpmem : p ∈ params.filterMap encodeEntry :=
      List.mem_filterMap.mpr ⟨e, he, hpeq⟩
    have hpmem2 : p ∈ sortParts (params.filterMap encodeEntry) :=
      (sortParts_perm _).mem_iff.mpr hpmem
    have hne : ¬ params.length = 0 := by
      intro h0
      rw [List.length_eq_zero.mp h0] at he
      exact absurd he (List.not_mem_nil _)
    rw [BuildQueryString, if_neg hne]
    exact mem_joinAmp_occurs _ _ hpmem2

/-- C1 witness: a concrete mapping with one present and one nil entry. -/
theorem C1_witness :
    (BuildQueryString [("k", GoValue.vbase (GoBase.bstr "v")), ("n", GoValue.vnil)] =
      BuildQueryString
        ([("k", GoValue.vbase (GoBase.bstr "v")), ("n", GoValue.vnil)].filter
          fun e => isPresent e.2)) ∧
    (∃ p, encodeEntry ("k", GoValue.vbase (GoBase.bstr "v")) = some p ∧
      strOccurs p
        (BuildQueryString
          [("k", GoValue.vbase (GoBase.bstr "v")), ("n", GoValue.vnil)])) :=
  ⟨(C1 [("k", GoValue.vbase (GoBase.bstr "v")), ("n", GoValue.vnil)]).1,
   (C1 [("k", GoValue.vbase (GoBase.bstr "v")), ("n", GoValue.vnil)]).2
     ("k", GoValue.vbase (GoBase.bstr "v")) (List.mem_cons_self _ _) rfl⟩

/-- C2 (amended): for a structured value whose `json.Marshal` succeeds —
modelled as `bstructured j` with `j` well-formed, directly or behind a
non-nil pointer — the serialized value under key `k` is the
percent-encoding of the JSON text of `j`; that percent-encoded string
percent-decodes back to the JSON text, which JSON-parses back to `j`. The
original claim fails for structured values on which `json.Marshal` fails,
where the code falls back to the fmt rendering, which is not JSON (see the
counterexample). -/
theorem C2_amended (k : String) (j : JsonVal) (hwf : wfJson j = true) :
    encodeEntry (k, GoValue.vbase (GoBase.bstructured j)) =
      some (queryEscape k ++ "=" ++ queryEscape ⟨serJson j⟩) ∧
    encodeEntry (k, GoValue.vptr (GoBase.bstructured j)) =
      some (queryEscape k ++ "=" ++ queryEscape ⟨serJson j⟩) ∧
    percentDecode (queryEscape ⟨serJson j⟩) = some ⟨serJson j⟩ ∧
    jsonParse ⟨serJson j⟩ = some j :=
  ⟨rfl, rfl, percentDecode_queryEscape _, jsonParse_serJson j hwf⟩

/-- C2 witness: the object value with the single member `a: 1`. -/
theorem C2_witness :
    wfJson (JsonVal.obj (JsonObj.cons "a" (JsonVal.num 1) JsonObj.nil)) = true ∧
    (encodeEntry ("k", GoValue.vbase (GoBase.bstructured
        (JsonVal.obj (JsonObj.cons "a" (JsonVal.num 1) JsonObj.nil)))) =
      some (queryEscape "k" ++ "=" ++
        queryEscape ⟨serJson (JsonVal.obj (JsonObj.cons "a" (JsonVal.num 1) JsonObj.nil))⟩) ∧
    encodeEntry ("k", GoValue.vptr (GoBase.bstructured
        (JsonVal.obj (JsonObj.cons "a" (JsonVal.num 1) JsonObj.nil)))) =
      some (queryEscape "k" ++ "=" ++
        queryEscape ⟨serJson (JsonVal.obj (JsonObj.cons "a" (JsonVal.num 1) JsonObj.nil))⟩) ∧
    percentDecode (queryEscape ⟨serJson (JsonVal.obj (JsonObj.cons "a" (JsonVal.num 1) JsonObj.nil))⟩) =
      some ⟨serJson (JsonVal.obj (JsonObj.cons "a" (JsonVal.num 1) JsonObj.nil))⟩ ∧
    jsonParse ⟨serJson (JsonVal.obj (JsonObj.cons "a" (JsonVal.num 1) JsonObj.nil))⟩ =
      some (JsonVal.obj (JsonObj.cons "a" (JsonVal.num 1) JsonObj.nil))) :=
  ⟨rfl, C2_amended "k" (JsonVal.obj (JsonObj.cons "a" (JsonVal.num 1) JsonObj.nil)) rfl⟩

/-- C2 counterexample: a structured Go value on which `json.Marshal` fails
(a slice containing a NaN float, rendered by fmt as `[NaN]`). Its
serialized value percent-decodes to `[NaN]`, which is not valid JSON — so
the original claim (every structured value round-trips through JSON) does
not hold of the code. -/
theorem C2_counterexample :
    encodeEntry ("k", GoValue.vbase (GoBase.bbad "[NaN]")) =
      some (queryEscape "k" ++ "=" ++ queryEscape "[NaN]") ∧
    queryEscape "[NaN]" = "%5BNaN%5D" ∧
    percentDecode "%5BNaN%5D" = some "[NaN]" ∧
    jsonParse "[NaN]" = none :=
  ⟨rfl, by decide, by decide, rfl⟩

/-- Canonical string representation of a primitive value, written from the
claim's words: the string itself; decimal digits (with sign) for integers;
`true`/`false` for booleans; the canonical decimal rendering for floats
(carried as the unmodelled `%g` rendering). -/
def canonicalRepr : GoBase → String
  | .bstr s => s
  | .bint i => if i < 0 then "-" ++ ⟨natToDigits i.natAbs⟩ else ⟨natToDigits i.toNat⟩
  | .buint n => ⟨natToDigits n⟩
  | .bfloat r => r
  | .bbool b => if b then "true" else "false"
  | _ => ""

/-- Primitive values: string, integer, unsigned integer, float, boolean. -/
def isPrimitive : GoBase → Bool
  | .bstr _ => true
  | .bint _ => true
  | .buint _ => true
  | .bfloat _ => true
  | .bbool _ => true
  | _ => false

theorem renderBase_canonical (b : GoBase) (h : isPrimitive b = true) :
    renderBase b = canonicalRepr b := by
  cases b with
  | bstr s => rfl
  | bint i =>
    rw [renderBase, canonicalRepr, intToChars]
    by_cases hi : i < 0
    · rw [if_pos hi, if_pos hi]
      rfl
    · rw [if_neg hi, if_neg hi]
  | buint n => rfl
  | bfloat r => rfl
  | bbool b => rfl
  | bstructured j => exact absurd h (by simp [isPrimitive])
  | bbad r => exact absurd h (by simp [isPrimitive])
  | bother r => exact absurd h (by simp [isPrimitive])

/-- C3: the serialized value of a primitive entry is the percent-encoding
of the value's canonical string representation. -/
theorem C3 (k : String) (b : GoBase) (hprim : isPrimitive b = true) :
    encodeEntry (k, GoValue.vbase b) =
      some (queryEscape k ++ "=" ++ queryEscape (canonicalRepr b)) := by
  rw [← renderBase_canonical b hprim]
  rfl

/-- C3 witness: the primitive integer -5 under key `k`. -/
theorem C3_witness :
    encodeEntry ("k", GoValue.vbase (GoBase.bint (-5))) =
      some (queryEscape "k" ++ "=" ++ queryEscape (canonicalRepr (GoBase.bint (-5)))) :=
  C3 "k" (GoBase.bint (-5)) rfl

/-- C4 (amended): `BuildQueryString` is deterministic — two mappings with
the same entries (any iteration orders, keys distinct as in a Go map) give
the same string — and the parts of the result are sorted by their
percent-ENCODED keys (`goStrLt` never orders a later part's key before an
earlier one's). The original claim's ordering by raw mapping keys fails:
percent-encoding does not preserve the order of keys (see the
counterexample). -/
theorem C4_amended (p1 p2 : List (String × GoValue)) (hperm : List.Perm p1 p2)
    (hnd : (p1.map Prod.fst).Nodup) :
    BuildQueryString p1 = BuildQueryString p2 ∧
    (sortParts (p1.filterMap encodeEntry)).Pairwise
      (fun a b => goStrLt (partKey b) (partKey a) = false) := by
  constructor
  · rw [BuildQueryString, BuildQueryString]
    by_cases h0 : p1.length = 0
    · rw [if_pos h0, if_pos (by rw [← hperm.length_eq]; exact h0)]
    · rw [if_neg h0, if_neg (by rw [← hperm.length_eq]; exact h0)]
      have hnd' : p1.Pairwise (fun a b => a.1 ≠ b.1) := List.pairwise_map.mp hnd
      rw [sortParts_eq_of_perm _ _ (hperm.filterMap _) (filterMap_parts_keys p1 hnd')]
  · exact sortParts_sorted _

/-- C4 witness: the two iteration orders of the mapping b=1, a=2. -/
theorem C4_witness :
    (BuildQueryString [("b", GoValue.vbase (GoBase.bint 1)), ("a", GoValue.vbase (GoBase.bint 2))] =
      BuildQueryString [("a", GoValue.vbase (GoBase.bint 2)), ("b", GoValue.vbase (GoBase.bint 1))]) ∧
    (sortParts ([("b", GoValue.vbase (GoBase.bint 1)), ("a", GoValue.vbase (GoBase.bint 2))].filterMap
      encodeEntry)).Pairwise (fun a b => goStrLt (partKey b) (partKey a) = false) :=
  C4_amended _ _ (List.Perm.swap _ _ _) (by decide)

/-- C4 counterexample: the keys `a b` and `a!`. In raw-key order
`a b` comes first (space sorts before `!`), but the returned string is
`a%21=2&a+b=1`: the pair of the larger raw key `a!` appears first, because
the code sorts by the percent-encoded keys (`%` sorts before `+`). So the
original claim's "lexicographic order of their keys" does not hold of the
code. -/
theorem C4_counterexample :
    BuildQueryString
      [("a b", GoValue.vbase (GoBase.bint 1)), ("a!", GoValue.vbase (GoBase.bint 2))] =
      "a%21=2&a+b=1" ∧
    goStrLt "a b" "a!" = true :=
  ⟨by decide, by decide⟩

/-! ## The client, MakeRequest and MakeRequestWithQuery (client.go lines 17-78, 183-255) -/

/-- DefaultBaseURL of client.go line 19. -/
def DefaultBaseURL : String := "https://api.thecompaniesapi.com"

/-- DefaultTimeout of client.go line 21: 300 seconds, in nanoseconds (Go
`time.Duration` counts nanoseconds). -/
def DefaultTimeout : Nat := 300000000000

/-- The part of Go's `http.Client` the SDK configures: its timeout. -/
structure GoHTTPClient where
  timeout : Nat

/-- BaseClient of client.go lines 25-30. -/
structure BaseClient where
  baseURL : String
  apiKey : String
  httpClient : GoHTTPClient
  visitorID : String

/-- WithCustomBaseURL (lines 36-40). -/
def WithCustomBaseURL (baseURL : String) : BaseClient → BaseClient :=
  fun c => { c with baseURL := baseURL }

/-- WithCustomHTTPClient (lines 43-47). -/
def WithCustomHTTPClient (httpClient : GoHTTPClient) : BaseClient → BaseClient :=
  fun c => { c with httpClient := httpClient }

/-- WithTimeout (lines 50-54). -/
def WithTimeout (timeout : Nat) : BaseClient → BaseClient :=
  fun c => { c with httpClient := { c.httpClient with timeout := timeout } }

/-- WithVisitorID (lines 57-61). -/
def WithVisitorID (visitorID : String) : BaseClient → BaseClient :=
  fun c => { c with visitorID := visitorID }

/-- NewBaseClient (lines 64-78): the default configuration, then the
options applied in order. The Go zero value of `visitorID` is the empty
string. -/
def NewBaseClient (apiKey : String) (options : List (BaseClient → BaseClient)) :
    BaseClient :=
  options.foldl (fun c option => option c)
    { baseURL := DefaultBaseURL, apiKey := apiKey,
      httpClient := { timeout := DefaultTimeout }, visitorID := "" }

/-- An HTTP request as MakeRequest builds it: method, full URL, headers in
the order they are set, and the marshaled body bytes if any. -/
structure HttpRequest where
  method : String
  url : String
  headers : List (String × String)
  body : Option String

/-- An HTTP response after `io.ReadAll` succeeded: status code and body. -/
structure HttpResponse where
  statusCode : Nat
  body : String

/-- Outcome of one transport attempt (`httpClient.Do` then `io.ReadAll`):
the Do call fails, the body read fails (after a response with the given
status arrived), or a response with fully read body. -/
inductive TransportResult where
  | doError (msg : String)
  | readErr (statusCode : Nat) (msg : String)
  | ok (resp : HttpResponse)

/-- An error returned by MakeRequest: either one built locally with
`fmt.Errorf` (marshal failure, request-construction failure, transport
failure, read failure, or the generic `HTTP code: body` fallback), or the
structured `*Error` decoded from an error response body (its Code, Message
and Details fields). -/
inductive ClientError where
  | localError (msg : String)
  | apiError (code message details : String)

/-- The `body any` argument of MakeRequest together with its
`json.Marshal` outcome: a body that marshals to the JSON value `j`, or one
on which `json.Marshal` fails with the given message. -/
inductive GoBody where
  | goodBody (j : JsonVal)
  | badBody (msg : String)

/-- Whether marshaling the body succeeds (vacuously for a nil body). -/
def marshalOk : Option GoBody → Bool
  | some (.badBody _) => false
  | _ => true

/-- Decimal rendering of a status code (`%d`). -/
def natToStr (n : Nat) : String := ⟨natToDigits n⟩

/-- ASCII lower-casing, the fold relevant to the JSON field names `code`,
`message`, `details`. -/
def asciiLower (c : Char) : Char :=
  if 65 ≤ c.toNat ∧ c.toNat ≤ 90 then Char.ofNat (c.toNat + 32) else c

/-- ASCII-lowercased string. -/
def lowerStr (s : String) : String := ⟨s.data.map asciiLower⟩

/-- Which field of the `Error` struct a JSON object key feeds:
`encoding/json` matches field tags case-insensitively (0 = Code,
1 = Message, 2 = Details; none = unknown key, ignored). -/
def errField (k : String) : Option Nat :=
  if lowerStr k = "code" then some 0
  else if lowerStr k = "message" then some 1
  else if lowerStr k = "details" then some 2
  else none

/-- Folds the members of a JSON object into the three string fields of the
`Error` struct, as `json.Unmarshal` does: later duplicates win, `null`
leaves a field unchanged, a non-string value for a known field makes the
whole decode fail, unknown keys are ignored. -/
def setErrFields : JsonObj → String × String × String →
    Option (String × String × String)
  | .nil, acc => some acc
  | .cons k v tl, acc =>
    match errField k with
    | none => setErrFields tl acc
    | some i =>
      match v with
      | .str s =>
        setErrFields tl
          (if i = 0 then (s, acc.2.1, acc.2.2)
           else if i = 1 then (acc.1, s, acc.2.2)
           else (acc.1, acc.2.1, s))
      | .null => setErrFields tl acc
      | _ => none

/-- Model of `json.Unmarshal(responseBody, &apiErr)` for the `Error`
struct (line 238): the body must parse as a JSON object (or `null`, which
leaves the zero value); anything else is a decode error, surfaced as
`none`. -/
def decodeError (body : String) : Option (String × String × String) :=
  match jsonParse body with
  | some (.obj fs) => setErrFields fs ("", "", "")
  | some .null => some ("", "", "")
  | _ => none

/-- The headers MakeRequest sets (lines 216-223): Authorization always,
Content-Type exactly when a body is present, Tca-Visitor-Id exactly when
the configured visitor id is nonempty. -/
def requestHeaders (c : BaseClient) (hasBody : Bool) : List (String × String) :=
  ("Authorization", "Basic " ++ c.apiKey) ::
    ((if hasBody then [("Content-Type", "application/json")] else []) ++
      (if c.visitorID ≠ "" then [("Tca-Visitor-Id", c.visitorID)] else []))

/-- The request `http.NewRequestWithContext` builds (line 211), with the
headers then set on it. -/
def buildReq (c : BaseClient) (method path : String) (reqBody : Option String) :
    HttpRequest :=
  { method := method, url := c.baseURL ++ path,
    headers := requestHeaders c reqBody.isSome, body := reqBody }

/-- Response handling of MakeRequest (lines 225-244): a Do failure or a
read failure is wrapped and returned; a status of at least 400 decodes the
error payload (falling back to the generic `HTTP code: body` error);
otherwise the body bytes are returned. The second component is the list of
requests given to the transport. -/
def handleResponse (req : HttpRequest) : TransportResult →
    (Option String × Option ClientError) × List HttpRequest
  | .doError m =>
    ((none, some (.localError ("failed to execute request: " ++ m))), [req])
  | .readErr _ m =>
    ((none, some (.localError ("failed to read response body: " ++ m))), [req])
  | .ok resp =>
    if 400 ≤ resp.statusCode then
      match decodeError resp.body with
      | some fs => ((none, some (.apiError fs.1 fs.2.1 fs.2.2)), [req])
      | none =>
        ((none, some (.localError
          ("HTTP " ++ natToStr resp.statusCode ++ ": " ++ resp.body))), [req])
    else ((some resp.body, none), [req])

/-- MakeRequest after marshaling (lines 211-244): `reqOk` models whether
`http.NewRequestWithContext` succeeds (it fails only on malformed
method/URL); on failure the wrapped error returns before any transport
call. -/
def doRequest (c : BaseClient) (transport : HttpRequest → TransportResult)
    (reqOk : Bool) (method path : String) (reqBody : Option String) :
    (Option String × Option ClientError) × List HttpRequest :=
  match reqOk with
  | false => ((none, some (.localError "failed to create request")), [])
  | true =>
    handleResponse (buildReq c method path reqBody)
      (transport (buildReq c method path reqBody))

/-- Model of MakeRequest (lines 201-245). The transport (`httpClient.Do`
plus `io.ReadAll`) is a parameter; the result pairs Go's
`([]byte, error)` return with the list of requests handed to the
transport, which records how many attempts were made and with which
headers. A body that fails to marshal returns immediately (lines
204-207). -/
def MakeRequest (c : BaseClient) (transport : HttpRequest → TransportResult)
    (reqOk : Bool) (method path : String) (body : Option GoBody) :
    (Option String × Option ClientError) × List HttpRequest :=
  match body with
  | some (.badBody m) =>
    ((none, some (.localError ("failed to marshal request body: " ++ m))), [])
  | some (.goodBody j) => doRequest c transport reqOk method path (some ⟨serJson j⟩)
  | none => doRequest c transport reqOk method path none

/-- Model of `strings.Contains(path, "?")` (line 190). -/
def strContainsChar (s : String) (c : Char) : Bool := s.data.contains c

/-- The full path MakeRequestWithQuery passes on (lines 185-195): the query
string is appended when the mapping is nonempty and serializes to a
nonempty string, joined with `&` if the path already contains `?` and with
`?` otherwise. -/
def fullPathFor (path : String) (queryParams : List (String × GoValue)) : String :=
  if queryParams.length > 0 then
    if BuildQueryString queryParams ≠ "" then
      path ++ (if strContainsChar path '?' then "&" else "?") ++
        BuildQueryString queryParams
    else path
  else path

/-- Model of MakeRequestWithQuery (lines 184-198). -/
def MakeRequestWithQuery (c : BaseClient) (transport : HttpRequest → TransportResult)
    (reqOk : Bool) (method path : String) (queryParams : List (String × GoValue))
    (body : Option GoBody) :
    (Option String × Option ClientError) × List HttpRequest :=
  MakeRequest c transport reqOk method (fullPathFor path queryParams) body

/-- The claim's description of the full path, written from its words: the
path unchanged when the mapping is empty or serializes to the empty
string, otherwise path, separator (`&` if the path contains `?`, else
`?`), query string. -/
def fullPathSpec (path : String) (queryParams : List (String × GoValue)) : String :=
  if queryParams.length = 0 ∨ BuildQueryString queryParams = "" then path
  else path ++ (if strContainsChar path '?' then "&" else "?") ++
    BuildQueryString queryParams

/-- State-passing form of the BuildQueryString method: its body reads no
field of the receiver and assigns none, so the receiver state after the
call is the receiver unchanged. -/
def BuildQueryStringSt (c : BaseClient) (params : List (String × GoValue)) :
    String × BaseClient := (BuildQueryString params, c)

/-- State-passing form of MakeRequest: its body only reads `baseURL`,
`apiKey`, `visitorID` and `httpClient` and contains no assignment to any
receiver field, so the receiver state after the call is the receiver
unchanged. -/
def MakeRequestSt (c : BaseClient) (transport : HttpRequest → TransportResult)
    (reqOk : Bool) (method path : String) (body : Option GoBody) :
    ((Option String × Option ClientError) × List HttpRequest) × BaseClient :=
  (MakeRequest c transport reqOk method path body, c)

/-- State-passing form of MakeRequestWithQuery (no receiver field is
assigned in its body either). -/
def MakeRequestWithQuerySt (c : BaseClient) (transport : HttpRequest → TransportResult)
    (reqOk : Bool) (method path : String) (queryParams : List (String × GoValue))
    (body : Option GoBody) :
    ((Option String × Option ClientError) × List HttpRequest) × BaseClient :=
  (MakeRequestWithQuery c transport reqOk method path queryParams body, c)

/-- State-passing form of the BaseURL getter (lines 248-250). -/
def BaseURL (c : BaseClient) : String × BaseClient := (c.baseURL, c)

/-- State-passing form of the HTTPClient getter (lines 253-255). -/
def HTTPClient (c : BaseClient) : GoHTTPClient × BaseClient := (c.httpClient, c)

theorem handleResponse_trace (req : HttpRequest) (r : TransportResult) :
    (handleResponse req r).2 = [req] := by
  cases r with
  | doError m => rfl
  | readErr s m => rfl
  | ok resp =>
    rw [handleResponse]
    split
    · split <;> rfl
    · rfl

theorem mem_trace_headers (c : BaseClient) (transport : HttpRequest → TransportResult)
    (reqOk : Bool) (method path : String) (rb : Option String) :
    ∀ req ∈ (doRequest c transport reqOk method path rb).2,
      req.headers = requestHeaders c rb.isSome := by
  intro req hreq
  cases reqOk with
  | false =>
    rw [doRequest] at hreq
    exact absurd hreq (List.not_mem_nil _)
  | true =>
    rw [doRequest, handleResponse_trace, List.mem_singleton] at hreq
    rw [hreq]
    rfl

theorem requestHeaders_auth (c : BaseClient) (hb : Bool) :
    ("Authorization", "Basic " ++ c.apiKey) ∈ requestHeaders c hb :=
  List.mem_cons_self _ _

theorem requestHeaders_visitor (c : BaseClient) (hb : Bool) :
    ("Tca-Visitor-Id", c.visitorID) ∈ requestHeaders c hb ↔ c.visitorID ≠ "" := by
  rw [requestHeaders]
  constructor
  · intro h hv
    rw [hv] at h
    cases hb <;> simp at h
  · intro hv
    rw [if_pos hv]
    cases hb <;> simp

theorem makeRequest_trace_len (c : BaseClient) (transport : HttpRequest → TransportResult)
    (reqOk : Bool) (method path : String) (body : Option GoBody) :
    (MakeRequest c transport reqOk method path body).2.length ≤ 1 := by
  have hdo : ∀ rb : Option String,
      (doRequest c transport reqOk method path rb).2.length ≤ 1 := by
    intro rb
    cases reqOk with
    | false =>
      rw [doRequest]
      exact Nat.zero_le 1
    | true =>
      rw [doRequest, handleResponse_trace]
      exact Nat.le_refl 1
  cases body with
  | none => exact hdo none
  | some gb =>
    cases gb with
    | goodBody j => exact hdo (some ⟨serJson j⟩)
    | badBody m => exact Nat.zero_le 1

/-! ## Claims C5-C10: MakeRequest and MakeRequestWithQuery -/

/-- Error payload used by the C5 and C6 examples. -/
def errPayload : String :=
  "\x7b\"code\":\"not_found\",\"message\":\"gone\",\"details\":\"d\"\x7d"

/-- C5 (amended): for a response with status at least 400 whose body
decodes as the error payload, MakeRequest returns the structured API error
carrying exactly the decoded code/message/details, and no response bytes.
The original claim's "non-2xx" does not hold of the code: a 3xx response
takes the success path (see the counterexample) because the code tests
`StatusCode >= 400`. -/
theorem C5_amended (c : BaseClient) (transport : HttpRequest → TransportResult)
    (method path : String) (body : Option GoBody) (hok : marshalOk body = true)
    (resp : HttpResponse) (hstatus : 400 ≤ resp.statusCode)
    (code msg det : String) (hdec : decodeError resp.body = some (code, msg, det))
    (htr : ∀ req, transport req = TransportResult.ok resp) :
    (MakeRequest c transport true method path body).1 =
      (none, some (ClientError.apiError code msg det)) := by
  cases body with
  | none => rw [MakeRequest, doRequest, htr, handleResponse, if_pos hstatus, hdec]
  | some gb =>
    cases gb with
    | goodBody j => rw [MakeRequest, doRequest, htr, handleResponse, if_pos hstatus, hdec]
    | badBody m => exact absurd hok (by simp [marshalOk])

/-- C5 witness: a 404 whose body carries code/message/details. -/
theorem C5_witness :
    (MakeRequest (NewBaseClient "key" [])
        (fun _ => TransportResult.ok ⟨404, errPayload⟩)
        true "GET" "/v2/companies" none).1 =
      (none, some (ClientError.apiError "not_found" "gone" "d")) :=
  C5_amended (NewBaseClient "key" []) (fun _ => TransportResult.ok ⟨404, errPayload⟩)
    "GET" "/v2/companies" none rfl ⟨404, errPayload⟩ (by decide)
    "not_found" "gone" "d" (by decide) (fun _ => rfl)

/-- C5 counterexample: a 300 response is not 2xx and its body is a
well-formed error payload, yet MakeRequest returns the body bytes and no
error — the code only treats status at least 400 as an error. -/
theorem C5_counterexample :
    ¬ (200 ≤ 300 ∧ 300 ≤ 299) ∧
    decodeError errPayload = some ("not_found", "gone", "d") ∧
    (MakeRequest (NewBaseClient "key" [])
        (fun _ => TransportResult.ok ⟨300, errPayload⟩)
        true "GET" "/v2/companies" none).1 =
      (some errPayload, none) :=
  ⟨by decide, by decide, rfl⟩

/-- C6 (amended): for a response with status at least 400 whose body does
not decode as the error payload, MakeRequest returns a generic local error
whose message contains the decimal status code and the raw body. The
original claim's "non-2xx" does not hold of the code: a 3xx response with
a malformed body takes the success path (see the counterexample). -/
theorem C6_amended (c : BaseClient) (transport : HttpRequest → TransportResult)
    (method path : String) (body : Option GoBody) (hok : marshalOk body = true)
    (resp : HttpResponse) (hstatus : 400 ≤ resp.statusCode)
    (hdec : decodeError resp.body = none)
    (htr : ∀ req, transport req = TransportResult.ok resp) :
    ∃ m, (MakeRequest c transport true method path body).1 =
        (none, some (ClientError.localError m)) ∧
      strOccurs (natToStr resp.statusCode) m ∧ strOccurs resp.body m := by
  refine ⟨"HTTP " ++ natToStr resp.statusCode ++ ": " ++ resp.body, ?_, ?_, ?_⟩
  · cases body with
    | none => rw [MakeRequest, doRequest, htr, handleResponse, if_pos hstatus, hdec]
    | some gb =>
      cases gb with
      | goodBody j => rw [MakeRequest, doRequest, htr, handleResponse, if_pos hstatus, hdec]
      | badBody m => exact absurd hok (by simp [marshalOk])
  · refine ⟨"HTTP ".data, (": " ++ resp.body).data, ?_⟩
    simp [String.data_append, List.append_assoc]
  · refine ⟨("HTTP " ++ natToStr resp.statusCode ++ ": ").data, [], ?_⟩
    simp [String.data_append, List.append_assoc]

/-- C6 witness: a 500 with the unparsable body `oops`. -/
theorem C6_witness :
    ∃ m, (MakeRequest (NewBaseClient "key" [])
        (fun _ => TransportResult.ok ⟨500, "oops"⟩)
        true "GET" "/v2/companies" none).1 =
        (none, some (ClientError.localError m)) ∧
      strOccurs (natToStr 500) m ∧ strOccurs "oops" m :=
  C6_amended (NewBaseClient "key" []) (fun _ => TransportResult.ok ⟨500, "oops"⟩)
    "GET" "/v2/companies" none rfl ⟨500, "oops"⟩ (by decide) (by decide) (fun _ => rfl)

/-- C6 counterexample: a 300 response is not 2xx and its body `oops` fails
to decode, yet MakeRequest returns the body bytes and no error. -/
theorem C6_counterexample :
    ¬ (200 ≤ 300 ∧ 300 ≤ 299) ∧
    decodeError "oops" = none ∧
    (MakeRequest (NewBaseClient "key" [])
        (fun _ => TransportResult.ok ⟨300, "oops"⟩)
        true "GET" "/v2/companies" none).1 =
      (some "oops", none) :=
  ⟨by decide, by decide, rfl⟩

/-- C7: every request MakeRequest hands to the transport carries the
Authorization header `Basic ` + apiKey, and carries the Tca-Visitor-Id
header (with the configured visitor id) exactly when the configured
visitor id is nonempty. -/
theorem C7 (c : BaseClient) (transport : HttpRequest → TransportResult) (reqOk : Bool)
    (method path : String) (body : Option GoBody) :
    ∀ req ∈ (MakeRequest c transport reqOk method path body).2,
      ("Authorization", "Basic " ++ c.apiKey) ∈ req.headers ∧
      (("Tca-Visitor-Id", c.visitorID) ∈ req.headers ↔ c.visitorID ≠ "") := by
  intro req hreq
  cases body with
  | none =>
    rw [MakeRequest] at hreq
    rw [mem_trace_headers c transport reqOk method path none req hreq]
    exact ⟨requestHeaders_auth c _, requestHeaders_visitor c _⟩
  | some gb =>
    cases gb with
    | goodBody j =>
      rw [MakeRequest] at hreq
      rw [mem_trace_headers c transport reqOk method path (some ⟨serJson j⟩) req hreq]
      exact ⟨requestHeaders_auth c _, requestHeaders_visitor c _⟩
    | badBody m =>
      rw [MakeRequest] at hreq
      exact absurd hreq (List.not_mem_nil _)

/-- C7 witness: a client with visitor id `vid`; the one issued request
carries both headers. -/
theorem C7_witness :
    buildReq (NewBaseClient "key" [WithVisitorID "vid"]) "GET" "/p" none ∈
      (MakeRequest (NewBaseClient "key" [WithVisitorID "vid"])
        (fun _ => TransportResult.doError "x") true "GET" "/p" none).2 ∧
    (("Authorization", "Basic " ++ (NewBaseClient "key" [WithVisitorID "vid"]).apiKey) ∈
        (buildReq (NewBaseClient "key" [WithVisitorID "vid"]) "GET" "/p" none).headers ∧
      (("Tca-Visitor-Id", (NewBaseClient "key" [WithVisitorID "vid"]).visitorID) ∈
          (buildReq (NewBaseClient "key" [WithVisitorID "vid"]) "GET" "/p" none).headers ↔
        (NewBaseClient "key" [WithVisitorID "vid"]).visitorID ≠ "")) :=
  ⟨List.mem_singleton.mpr rfl,
   C7 (NewBaseClient "key" [WithVisitorID "vid"]) (fun _ => TransportResult.doError "x")
     true "GET" "/p" none
     (buildReq (NewBaseClient "key" [WithVisitorID "vid"]) "GET" "/p" none)
     (List.mem_singleton.mpr rfl)⟩

/-- C8: in the state-passing embedding, no client operation changes the
client: each returns the receiver it was given (the method bodies contain
no assignment to a receiver field), and the two getters return the
configured fields. -/
theorem C8 (c : BaseClient) (transport : HttpRequest → TransportResult) (reqOk : Bool)
    (method path : String) (queryParams : List (String × GoValue))
    (body : Option GoBody) :
    (BuildQueryStringSt c queryParams).2 = c ∧
    (MakeRequestSt c transport reqOk method path body).2 = c ∧
    (MakeRequestWithQuerySt c transport reqOk method path queryParams body).2 = c ∧
    (BaseURL c).2 = c ∧
    (HTTPClient c).2 = c ∧
    (BaseURL c).1 = c.baseURL ∧
    (HTTPClient c).1 = c.httpClient :=
  ⟨rfl, rfl, rfl, rfl, rfl, rfl, rfl⟩

/-- C9: a single MakeRequest call hands the transport at most one request;
a body that fails to marshal returns the wrapped marshal error with no
transport call; a request-construction failure likewise returns an error
with no transport call. -/
theorem C9 (c : BaseClient) (transport : HttpRequest → TransportResult) (reqOk : Bool)
    (method path : String) (body : Option GoBody) (m : String) :
    (MakeRequest c transport reqOk method path body).2.length ≤ 1 ∧
    (MakeRequest c transport reqOk method path (some (GoBody.badBody m))).2 = [] ∧
    (MakeRequest c transport reqOk method path (some (GoBody.badBody m))).1 =
      (none, some (ClientError.localError ("failed to marshal request body: " ++ m))) ∧
    (MakeRequest c transport false method path body).2 = [] ∧
    (MakeRequest c transport false method path body).1.1 = none ∧
    (MakeRequest c transport false method path body).1.2.isSome = true := by
  refine ⟨makeRequest_trace_len c transport reqOk method path body, rfl, rfl, ?_, ?_, ?_⟩
  · cases body with
    | none => rfl
    | some gb => cases gb <;> rfl
  · cases body with
    | none => rfl
    | some gb => cases gb <;> rfl
  · cases body with
    | none => rfl
    | some gb => cases gb <;> rfl

/-- C10: the full path MakeRequestWithQuery requests is the given path
unchanged when the mapping is empty or serializes to the empty string, and
otherwise the path joined to the query string with `&` when the path
already contains `?` and with `?` when it does not; MakeRequestWithQuery
is MakeRequest at that path. -/
theorem C10 (c : BaseClient) (transport : HttpRequest → TransportResult) (reqOk : Bool)
    (method path : String) (queryParams : List (String × GoValue))
    (body : Option GoBody) :
    fullPathFor path queryParams = fullPathSpec path queryParams ∧
    MakeRequestWithQuery c transport reqOk method path queryParams body =
      MakeRequest c transport reqOk method (fullPathSpec path queryParams) body := by
  have h : fullPathFor path queryParams = fullPathSpec path queryParams := by
    rw [fullPathFor, fullPathSpec]
    by_cases h0 : queryParams.length = 0
    · rw [if_neg (show ¬ queryParams.length > 0 by omega), if_pos (Or.inl h0)]
    · by_cases hq : BuildQueryString queryParams = ""
      · rw [if_pos (show queryParams.length > 0 by omega), if_neg (not_not_intro hq),
          if_pos (Or.inr hq)]
      · rw [if_pos (show queryParams.length > 0 by omega), if_pos hq,
          if_neg (show ¬ (queryParams.length = 0 ∨ BuildQueryString queryParams = "")
            from fun hor => hor.elim h0 hq)]
  exact ⟨h, by rw [MakeRequestWithQuery, h]⟩
end TCA
